import Mathlib

/-!
# strtime: `parse_time` and `fmt_time` (src/gotime.c)

A shallow embedding of the two functions of `src/gotime.c` and of the
`<time.h>` routines they call, and the properties of the specification checked
against them.

* A C string is the list of its characters before the terminating NUL; a
  character array is the list of its characters.
* `time_t`, `int64_t` and `long` are the same signed 64-bit type on the
  platform modelled (LP64), so `res.value = mktime(&t)` and `time_t tp = t`
  convert nothing.  `size_t` is unsigned 64-bit: passing the `int64_t max_len`
  to `strftime` and returning its `size_t` count as `int64_t` are the two
  conversions that change a value, and both are written out.
* The four library routines are not part of the repository.  The functions of
  `gotime.c` are embedded over an arbitrary library `Libc`, and the properties
  that hold whatever the routines do are proved for every `Libc`.
* `glibc_tz Z` is a reference library: the behaviour of the GNU C library
  (`strptime`, `mktime`, `gmtime_r`, `strftime`; ISO C 7.27 and POSIX) for a local
  time zone `Z` given as a POSIX `TZ` value, with or without daylight saving
  time of one hour, and for formats written with the numeric conversions
  `%Y %m %d %H %M %S`, `%%`, white space and ordinary characters; `glibc gmtoff`
  is that library for the zone at the fixed offset `gmtoff`.  The properties
  that depend on what the routines return are proved for it; those that depend
  on `mktime` alone are proved for every `strptime`.
-/

namespace Strtime

/-! ## Data model -/

/-- The calendar breakdown `struct tm` of `<time.h>` (the nine standard fields). -/
structure tm where
  tm_sec : Int
  tm_min : Int
  tm_hour : Int
  tm_mday : Int
  tm_mon : Int
  tm_year : Int
  tm_wday : Int
  tm_yday : Int
  tm_isdst : Int
deriving DecidableEq, Repr

/-- The value of `struct tm t = {}`: every field zero. -/
def tm.zero : tm := ⟨0, 0, 0, 0, 0, 0, 0, 0, 0⟩

/-- The `struct result` of gotime.h. -/
structure result where
  value : Int
  status : Int
deriving DecidableEq, Repr

/-- The macro `#define ERR_PARSE 1`. -/
def ERR_PARSE : Int := 1

/-- The macro `#define ERR_INVALID 2`. -/
def ERR_INVALID : Int := 2

/-- The terminating NUL of a C string. -/
def NUL : Char := Char.ofNat 0

/-- The C string held in a character array: the characters before the first NUL. -/
def cstr (buf : List Char) : List Char := buf.takeWhile (fun c => c != NUL)

/-- Conversion of an `int64_t` argument to the `size_t` parameter of `strftime`:
the value modulo `2^64`. -/
def size_t_of_int64 (x : Int) : Nat := (x % 2 ^ 64).toNat

/-- Conversion of the `size_t` count returned by `strftime` to the `int64_t`
return type of `fmt_time`: the value modulo `2^64`, read as two's complement. -/
def int64_of_size_t (n : Nat) : Int := ((n : Int) + 2 ^ 63) % 2 ^ 64 - 2 ^ 63

/-! ## The library routines -/

/-- The `<time.h>` routines `gotime.c` calls, as functions of their inputs.

* `strptime value format t`: `none` for a NULL return (no match); otherwise the
  number of characters of `value` consumed (the returned pointer is
  `value + k`) and the calendar breakdown after the call, which started as `t`.
* `mktime t`: the returned `time_t`.  The normalised fields `mktime` writes back
  are dropped: `parse_time` never reads its local `t` again.
* `gmtime_r t`: `none` for a NULL return, otherwise the breakdown written.
* `render format t`: the text `strftime` produces for `format` and `t`,
  before it is fitted into the array.
* `truncated buf maxsize format t`: the contents of the array after a render
  that did not fit (the C standard leaves them indeterminate). -/
structure Libc where
  strptime : List Char → List Char → tm → Option (Nat × tm)
  mktime : tm → Int
  gmtime_r : Int → Option tm
  render : List Char → tm → List Char
  truncated : List Char → Nat → List Char → tm → List Char

/-- ISO C 7.27.3.5 `strftime(s, maxsize, format, timeptr)`: if the rendered text
and its terminating NUL take no more than `maxsize` characters, they are stored
at the start of the array and the length of the text is returned; otherwise
zero is returned.  The array is the list `s`; a result longer than `s` means
characters beyond the caller's array were overwritten. -/
def strftime (L : Libc) (s : List Char) (maxsize : Nat) (format : List Char) (t : tm) :
    Nat × List Char :=
  let text := L.render format t
  if text.length + 1 ≤ maxsize then
    (text.length, text ++ NUL :: s.drop (text.length + 1))
  else
    (0, L.truncated s maxsize format t)

/-- One call of a library routine, with its arguments. -/
inductive Call where
  | strptime (value format : List Char)
  | mktime (t : tm)
  | gmtime_r (t : Int)
  | strftime (maxsize : Nat) (format : List Char) (t : tm)
deriving DecidableEq, Repr

/-! ## src/gotime.c -/

/-- The function `parse_time` of gotime.c, lines 10-25: the returned
`struct result`, and the library calls made, in order. -/
def parse_time (L : Libc) (value format : List Char) : result × List Call :=
  let t : tm := tm.zero
  let res : result := ⟨0, 0⟩
  match L.strptime value format t with
  | none => ({ res with status := ERR_PARSE }, [Call.strptime value format])
  | some (_, t) =>
    let res : result := { res with value := L.mktime t }
    let res : result := if res.value = -1 then { res with status := ERR_INVALID } else res
    (res, [Call.strptime value format, Call.mktime t])

/-- The function `fmt_time` of gotime.c, lines 27-34: the returned `int64_t`,
the array `buf` after the call, and the library calls made, in order. -/
def fmt_time (L : Libc) (t : Int) (buf : List Char) (max_len : Int) (format : List Char) :
    Int × List Char × List Call :=
  let tp : Int := t
  match L.gmtime_r tp with
  | none => (-ERR_INVALID, buf, [Call.gmtime_r tp])
  | some tm =>
    let r := strftime L buf (size_t_of_int64 max_len) format tm
    (int64_of_size_t r.1, r.2,
      [Call.gmtime_r tp, Call.strftime (size_t_of_int64 max_len) format tm])

/-! ## The reference library

The behaviour of the GNU C library for a local time zone given as a POSIX `TZ`
value (a standard offset east of UTC, with or without daylight saving time of
one hour between two yearly changes) and for formats written with the
conversions `%Y %m %d %H %M %S`, `%%`, white space and ordinary characters.
-/

/-- The number of days from 1970-01-01 to the civil date `y`-`m`-`d` of the
proleptic Gregorian calendar (`m` from 1 to 12; `d` may lie outside the month). -/
def days_from_civil (y m d : Int) : Int :=
  let y1 := if m ≤ 2 then y - 1 else y
  let era := y1 / 400
  let yoe := y1 % 400
  let mp := if m ≤ 2 then m + 9 else m - 3
  let doy := (153 * mp + 2) / 5 + d - 1
  let doe := yoe * 365 + yoe / 4 - yoe / 100 + doy
  era * 146097 + doe - 719468

/-- The civil date (year, month 1-12, day 1-31) that lies `z` days after 1970-01-01. -/
def civil_from_days (z : Int) : Int × Int × Int :=
  let z1 := z + 719468
  let era := z1 / 146097
  let doe := z1 % 146097
  let yoe := (doe - doe / 1460 + doe / 36524 - doe / 146096) / 365
  let doy := doe - (365 * yoe + yoe / 4 - yoe / 100)
  let mp := (5 * doy + 2) / 153
  let d := doy - (153 * mp + 2) / 5 + 1
  let m := if mp < 10 then mp + 3 else mp - 9
  (if m ≤ 2 then yoe + era * 400 + 1 else yoe + era * 400, m, d)

/-- Leap years of the Gregorian calendar. -/
def is_leap (y : Int) : Bool := y % 4 = 0 && (y % 100 != 0 || y % 400 = 0)

/-- The length of month `m` (1-12) of year `y`. -/
def days_in_month (y m : Int) : Int :=
  if m = 2 then (if is_leap y then 29 else 28)
  else if m = 4 ∨ m = 6 ∨ m = 9 ∨ m = 11 then 30
  else 31

/-- The table `__mon_yday` of glibc: the days of the year before the month `mon`
(0 to 11), and the days of the whole year at 12. -/
def mon_yday (leap : Bool) (mon : Int) : Int :=
  [0, 31, 59, 90, 120, 151, 181, 212, 243, 273, 304, 334, 365].getD mon.toNat 0
    + (if leap && 2 ≤ mon.toNat then 1 else 0)

/-- The least value of the `int` fields of `struct tm`. -/
def INT_MIN : Int := -2 ^ 31

/-- The greatest value of the `int` fields of `struct tm`. -/
def INT_MAX : Int := 2 ^ 31 - 1

/-- The least value of `time_t`. -/
def TIME_T_MIN : Int := -2 ^ 63

/-- The greatest value of `time_t`. -/
def TIME_T_MAX : Int := 2 ^ 63 - 1

/-- The routine `gmtime_r`: the UTC calendar breakdown of `t` seconds since the epoch; NULL
(`EOVERFLOW`) when the year does not fit the `int` field `tm_year`. -/
def gmtime_r (t : Int) : Option tm :=
  let days := t / 86400
  let rem := t % 86400
  let ymd := civil_from_days days
  let year := ymd.1 - 1900
  if INT_MIN ≤ year ∧ year ≤ INT_MAX then
    some { tm_sec := rem % 60, tm_min := rem / 60 % 60, tm_hour := rem / 3600,
           tm_mday := ymd.2.2, tm_mon := ymd.2.1 - 1, tm_year := year,
           tm_wday := (days + 4) % 7, tm_yday := days - days_from_civil ymd.1 1 1,
           tm_isdst := 0 }
  else none

/-- The seconds since the epoch of the fields of `t` read as a UTC date and
time, fields outside their ranges carried over as `mktime` does (ISO C 7.27.2.3:
the original values are not restricted to their ranges; `tm_wday` and
`tm_yday` are ignored). -/
def seconds_of_fields (t : tm) : Int :=
  let y := t.tm_year + 1900 + t.tm_mon / 12
  let m := t.tm_mon % 12 + 1
  (days_from_civil y m 1 + (t.tm_mday - 1)) * 86400
    + t.tm_hour * 3600 + t.tm_min * 60 + t.tm_sec

/-- A yearly change of a POSIX `TZ` value, `Mm.n.d/time`: `secs` seconds of local
time into the `n`-th day `d` of the week (0 is Sunday) of month `m`, the last
such day of the month when `n` is 5. -/
structure Rule where
  m : Int
  n : Nat
  d : Int
  secs : Int

/-- The local time zone of the process, as glibc reads it from a POSIX `TZ`
value `std offset [dst [,start,end]]`: standard time is `gmtoff` seconds east of
UTC, and a zone with daylight saving time has the two yearly changes `rules`,
its start and its end, between which the time is one hour further east. -/
structure Zone where
  gmtoff : Int
  rules : Option (Rule × Rule)

/-- The zone at the fixed offset `gmtoff`, without daylight saving time
(`TZ=UTC0` for 0). -/
def fixed_offset (gmtoff : Int) : Zone := ⟨gmtoff, none⟩

/-- US Eastern time, `TZ=EST5EDT,M3.2.0,M11.1.0`: five hours west of UTC, daylight
saving time from 02:00 of the second Sunday of March to 02:00 of the first
Sunday of November. -/
def us_eastern : Zone := ⟨-18000, some (⟨3, 2, 0, 7200⟩, ⟨11, 1, 0, 7200⟩)⟩

/-- The loop of glibc's `compute_change` that moves from the first day `d` of the
week in a month of `len` days to the `n`-th:
`for (i = 1; i < n; ++i) { if (d + 7 >= len) break; d += 7; }` -/
def nth_weekday : Nat → Int → Int → Int
  | 0, d, _ => d
  | i + 1, d, len => if d + 7 ≥ len then d else nth_weekday i (d + 7) len

/-- The function `compute_change` of glibc (`time/tzset.c`): the instant of the
change `rule` in `year`, for local time `offset` seconds east of UTC before the
change.  The days are counted from 1 January of `year` after 1970 and from
1 January 1970 for every earlier year; the day of the week of the first of the
month comes from Zeller's congruence in C arithmetic. -/
def compute_change (rule : Rule) (offset year : Int) : Int :=
  let t := if year > 1970 then
      ((year - 1970) * 365 + ((year - 1) / 4 - 1970 / 4) - ((year - 1) / 100 - 1970 / 100)
        + ((year - 1) / 400 - 1970 / 400)) * 86400
    else 0
  let t := t + mon_yday (is_leap year) (rule.m - 1) * 86400
  let m1 := (rule.m + 9) % 12 + 1
  let yy0 := if rule.m ≤ 2 then year - 1 else year
  let yy1 := Int.tdiv yy0 100
  let yy2 := Int.tmod yy0 100
  let dow := Int.tmod ((26 * m1 - 2) / 10 + 1 + yy2 + Int.tdiv yy2 4 + Int.tdiv yy1 4 - 2 * yy1) 7
  let dow := if dow < 0 then dow + 7 else dow
  let d := if rule.d - dow < 0 then rule.d - dow + 7 else rule.d - dow
  let d := nth_weekday (rule.n - 1) d
    (mon_yday (is_leap year) rule.m - mon_yday (is_leap year) (rule.m - 1))
  t + d * 86400 - offset + rule.secs

/-- Daylight saving time is in force at the instant `timer` (glibc's
`__tz_compute`): the two changes are computed for the UTC year of `timer`; a
zone whose daylight saving time starts later in the year than it ends keeps it
over the turn of the year. -/
def in_dst (Z : Zone) (timer : Int) : Bool :=
  match Z.rules, gmtime_r timer with
  | some r, some g =>
    let c0 := compute_change r.1 Z.gmtoff (g.tm_year + 1900)
    let c1 := compute_change r.2 (Z.gmtoff + 3600) (g.tm_year + 1900)
    if c0 > c1 then timer < c1 || c0 ≤ timer else c0 ≤ timer && timer < c1
  | _, _ => false

/-- The routine `localtime_r` for the zone `Z`: the calendar breakdown of the
instant `v` as local time, which is the UTC breakdown `gmtoff` seconds later, or
an hour more with `tm_isdst` set while daylight saving time is in force; NULL
when the year of the UTC or of the local breakdown does not fit `tm_year`. -/
def localtime_r (Z : Zone) (v : Int) : Option tm :=
  match gmtime_r v with
  | none => none
  | some _ =>
    if in_dst Z v then
      (gmtime_r (v + (Z.gmtoff + 3600))).map fun u => { u with tm_isdst := 1 }
    else gmtime_r (v + Z.gmtoff)

/-- The routine `mktime` for the zone `Z`.  The fields are local time, read as
the caller's `tm_isdst` says: as standard time when it is zero, so that the
instant is `gmtoff` seconds earlier than their UTC reading, whether or not
daylight saving time is in force then; as daylight saving time, an hour
earlier still, when it is positive; and when it is negative as whichever of the
two is in force (standard time in the hour skipped at the start of daylight
saving time; in the hour repeated at its end glibc returns either instant,
depending on its previous calls, and the first is taken here).  The error
value `(time_t) -1` is returned when the instant does not fit `time_t` or has
no local breakdown. -/
def mktime (Z : Zone) (t : tm) : Int :=
  let s := seconds_of_fields t
  let v :=
    if t.tm_isdst = 0 then s - Z.gmtoff
    else if 0 < t.tm_isdst then s - (Z.gmtoff + 3600)
    else if in_dst Z (s - (Z.gmtoff + 3600)) then s - (Z.gmtoff + 3600)
    else s - Z.gmtoff
  if TIME_T_MIN ≤ v ∧ v ≤ TIME_T_MAX ∧ (localtime_r Z v).isSome then v else -1

/-- The classification `isspace` in the C locale. -/
def isspace (c : Char) : Bool :=
  c = ' ' || c = '\t' || c = '\n' || c = Char.ofNat 11 || c = Char.ofNat 12 || c = '\r'

/-- The classification `isdigit`. -/
def isdigit (c : Char) : Bool := '0' ≤ c && c ≤ '9'

/-- The loop of glibc's `get_number`, entered with a digit at the head of `rp`:
`do { val *= 10; val += *rp++ - '0'; }
 while (--n > 0 && val * 10 <= hi && *rp >= '0' && *rp <= '9');` -/
def get_number_loop (hi : Nat) : Nat → Nat → List Char → Nat × List Char
  | n + 1, val, c :: rp =>
    let val := val * 10 + (c.toNat - '0'.toNat)
    if 0 < n ∧ val * 10 ≤ hi ∧ (rp.head?.map isdigit = some true) then
      get_number_loop hi n val rp
    else (val, rp)
  | _, val, rp => (val, rp)

/-- The `get_number (lo, hi, n)` step of glibc's `strptime`: skip white space,
require a digit, read at most `n` digits, and fail unless the value lies in
`[lo, hi]`. -/
def get_number (lo hi n : Nat) (rp : List Char) : Option (Nat × List Char) :=
  let rp := rp.dropWhile isspace
  if rp.head?.map isdigit = some true then
    let r := get_number_loop hi n 0 rp
    if r.1 < lo ∨ hi < r.1 then none else some r
  else none

/-- The matching loop of `strptime`, from the format `fmt` and the input
position `rp`: the rest of the input and the fields after the match, or `none`
(NULL) when the input does not match. -/
def strptime_loop : List Char → List Char → tm → Option (List Char × tm)
  | [], rp, t => some (rp, t)
  | f :: fmt, rp, t =>
    if isspace f then strptime_loop fmt (rp.dropWhile isspace) t
    else if f ≠ '%' then
      match rp with
      | r :: rp => if r = f then strptime_loop fmt rp t else none
      | [] => none
    else
      match fmt with
      | [] => none
      | c :: fmt =>
        if c = '%' then
          match rp with
          | r :: rp => if r = '%' then strptime_loop fmt rp t else none
          | [] => none
        else if c = 'Y' then
          (get_number 0 9999 4 rp).bind fun r =>
            strptime_loop fmt r.2 { t with tm_year := (r.1 : Int) - 1900 }
        else if c = 'm' then
          (get_number 1 12 2 rp).bind fun r =>
            strptime_loop fmt r.2 { t with tm_mon := (r.1 : Int) - 1 }
        else if c = 'd' then
          (get_number 1 31 2 rp).bind fun r =>
            strptime_loop fmt r.2 { t with tm_mday := (r.1 : Int) }
        else if c = 'H' then
          (get_number 0 23 2 rp).bind fun r =>
            strptime_loop fmt r.2 { t with tm_hour := (r.1 : Int) }
        else if c = 'M' then
          (get_number 0 59 2 rp).bind fun r =>
            strptime_loop fmt r.2 { t with tm_min := (r.1 : Int) }
        else if c = 'S' then
          (get_number 0 61 2 rp).bind fun r =>
            strptime_loop fmt r.2 { t with tm_sec := (r.1 : Int) }
        else none

/-- The conversion `%c` occurs in the format. -/
def has_conversion (c : Char) : List Char → Bool
  | [] => false
  | f :: fmt =>
    if f ≠ '%' then has_conversion c fmt
    else
      match fmt with
      | [] => false
      | d :: fmt => d = c || has_conversion c fmt

/-- The function `day_of_the_week` of glibc's `strptime`, in C arithmetic (division
truncates towards zero). -/
def day_of_the_week (t : tm) : Int :=
  let corr_year := 1900 + t.tm_year - (if t.tm_mon < 2 then 1 else 0)
  let q := Int.tdiv corr_year 4
  let wday := -473 + 365 * (t.tm_year - 70) + q - Int.tdiv q 25
    + (if Int.tmod q 25 < 0 then 1 else 0) + Int.tdiv (Int.tdiv q 25) 4
    + mon_yday false t.tm_mon + t.tm_mday - 1
  Int.tmod (Int.tmod wday 7 + 7) 7

/-- The function `day_of_the_year` of glibc's `strptime`. -/
def day_of_the_year (t : tm) : Int :=
  mon_yday (is_leap (1900 + t.tm_year)) t.tm_mon + (t.tm_mday - 1)

/-- The end of glibc's `strptime`: when a year, month or day conversion was
matched, `tm_wday` and `tm_yday` are derived from the year, month and day. -/
def derive_days (format : List Char) (t : tm) : tm :=
  if has_conversion 'Y' format || has_conversion 'm' format || has_conversion 'd' format then
    { t with tm_wday := day_of_the_week t, tm_yday := day_of_the_year t }
  else t

/-- The routine `strptime (value, format, &t)`: NULL, or the number of characters
consumed and the fields after the match. -/
def strptime (value format : List Char) (t : tm) : Option (Nat × tm) :=
  (strptime_loop format value t).map fun r =>
    (value.length - r.1.length, derive_days format r.2)

/-- The decimal digits of `n`, most significant first, in front of `acc`
(at most `fuel` digits; twenty cover every 64-bit number). -/
def decimal_loop : Nat → Nat → List Char → List Char
  | 0, _, acc => acc
  | fuel + 1, n, acc =>
    let acc := Char.ofNat ('0'.toNat + n % 10) :: acc
    if n / 10 = 0 then acc else decimal_loop fuel (n / 10) acc

/-- The number `v` as `strftime` prints it for a field of at least `width`
characters (glibc's `DO_NUMBER`): decimal, padded with zeros, a minus sign
first when negative. -/
def number (width : Nat) (v : Int) : List Char :=
  let ds := decimal_loop 20 v.natAbs []
  if v < 0 then '-' :: (List.replicate (width - 1 - ds.length) '0' ++ ds)
  else List.replicate (width - ds.length) '0' ++ ds

/-- The value of an `int` expression whose mathematical value is `x`: `x` modulo
`2^32`, read as two's complement. -/
def int_wrap (x : Int) : Int := (x + 2 ^ 31) % 2 ^ 32 - 2 ^ 31

/-- The pieces of text `strftime` produces for `fmt` and `t`, one for each
ordinary character and each conversion.  A conversion outside the vocabulary,
or a `%` that ends the format, is copied through, as glibc does for a
conversion it does not know. -/
def pieces : List Char → tm → List (List Char)
  | [], _ => []
  | f :: fmt, t =>
    if f ≠ '%' then [f] :: pieces fmt t
    else
      match fmt with
      | [] => [['%']]
      | c :: fmt =>
        (if c = '%' then ['%']
        else if c = 'Y' then number 1 (int_wrap (t.tm_year + 1900))
        else if c = 'm' then number 2 (int_wrap (t.tm_mon + 1))
        else if c = 'd' then number 2 t.tm_mday
        else if c = 'H' then number 2 t.tm_hour
        else if c = 'M' then number 2 t.tm_min
        else if c = 'S' then number 2 t.tm_sec
        else ['%', c]) :: pieces fmt t

/-- The text `strftime` renders for `fmt` and `t`: its pieces in order. -/
def render (fmt : List Char) (t : tm) : List Char := (pieces fmt t).flatten

/-- The array after glibc's `strftime` gave up on a text that does not fit: each
piece is stored at the position `i` reached so far while it is shorter than the
room left (`maxsize - i`), and the first piece that is not ends the call. -/
def store_pieces (maxsize : Nat) : Nat → List (List Char) → List Char → List Char
  | _, [], buf => buf
  | i, p :: ps, buf =>
    if maxsize - i ≤ p.length then buf
    else store_pieces maxsize (i + p.length) ps (buf.take i ++ p ++ buf.drop (i + p.length))

/-- The formats of the vocabulary modelled: every `%` is followed by one of
`Y m d H M S %`. -/
def in_vocabulary : List Char → Bool
  | [] => true
  | f :: fmt =>
    if f ≠ '%' then in_vocabulary fmt
    else
      match fmt with
      | [] => false
      | c :: fmt =>
        (c = 'Y' || c = 'm' || c = 'd' || c = 'H' || c = 'M' || c = 'S' || c = '%')
          && in_vocabulary fmt

/-- The reference library for the local time zone `Z`. -/
def glibc_tz (Z : Zone) : Libc where
  strptime := strptime
  mktime := mktime Z
  gmtime_r := gmtime_r
  render := render
  truncated := fun buf maxsize format t => store_pieces maxsize 0 (pieces format t) buf

/-- The reference library for the local time zone `gmtoff` seconds east of
UTC, without daylight saving time. -/
def glibc (gmtoff : Int) : Libc := glibc_tz (fixed_offset gmtoff)

/-! ## Notions used to state the properties -/

/-- The fields of `t` form a valid date and time of day: a month from January to
December, a day that exists in that month of that year, and a time from
00:00:00 to 23:59:59. -/
def valid_date_time (t : tm) : Prop :=
  0 ≤ t.tm_mon ∧ t.tm_mon ≤ 11 ∧ 1 ≤ t.tm_mday ∧
  t.tm_mday ≤ days_in_month (t.tm_year + 1900) (t.tm_mon + 1) ∧
  0 ≤ t.tm_hour ∧ t.tm_hour ≤ 23 ∧ 0 ≤ t.tm_min ∧ t.tm_min ≤ 59 ∧
  0 ≤ t.tm_sec ∧ t.tm_sec ≤ 59

instance (t : tm) : Decidable (valid_date_time t) := by
  unfold valid_date_time
  exact inferInstance

/-- The value of a string of digits read after the value `acc`. -/
def digits_value (acc : Nat) (ds : List Char) : Nat :=
  ds.foldl (fun v c => v * 10 + (c.toNat - '0'.toNat)) acc

/-- The ranges within which `strptime` leaves the fields of a breakdown that
started as zero: the ranges its conversions accept, and `tm_isdst`, which no
conversion sets, still zero. -/
def matched_fields (t : tm) : Prop :=
  -1900 ≤ t.tm_year ∧ t.tm_year ≤ 8099 ∧ 0 ≤ t.tm_mon ∧ t.tm_mon ≤ 11 ∧
  0 ≤ t.tm_mday ∧ t.tm_mday ≤ 31 ∧ 0 ≤ t.tm_hour ∧ t.tm_hour ≤ 23 ∧
  0 ≤ t.tm_min ∧ t.tm_min ≤ 59 ∧ 0 ≤ t.tm_sec ∧ t.tm_sec ≤ 61 ∧ t.tm_isdst = 0

instance (t : tm) : Decidable (matched_fields t) := by
  unfold matched_fields
  exact inferInstance

/-- The breakdowns `u` and `t` show the same date and time of day. -/
def same_date_time (u t : tm) : Prop :=
  u.tm_year = t.tm_year ∧ u.tm_mon = t.tm_mon ∧ u.tm_mday = t.tm_mday ∧
  u.tm_hour = t.tm_hour ∧ u.tm_min = t.tm_min ∧ u.tm_sec = t.tm_sec

instance (u t : tm) : Decidable (same_date_time u t) := by
  unfold same_date_time
  exact inferInstance

/-- The breakdown `t` with a day beyond the end of its month carried into the
following month. -/
def carry_day (t : tm) : tm :=
  { t with
    tm_mon := t.tm_mon + 1
    tm_mday := t.tm_mday - days_in_month (t.tm_year + 1900) (t.tm_mon + 1) }

/-- The pattern of the round trip: year, month, day, hour, minute and second. -/
def utc_format : List Char := "%Y-%m-%dT%H:%M:%SZ".toList

/-- The breakdown `t` after the conversion `c` has read back the field that
`strftime` printed from `u`. -/
def set_field (c : Char) (u t : tm) : tm :=
  if c = 'Y' then { t with tm_year := u.tm_year }
  else if c = 'm' then { t with tm_mon := u.tm_mon }
  else if c = 'd' then { t with tm_mday := u.tm_mday }
  else if c = 'H' then { t with tm_hour := u.tm_hour }
  else if c = 'M' then { t with tm_min := u.tm_min }
  else if c = 'S' then { t with tm_sec := u.tm_sec }
  else t

/-- The breakdown `t` after every conversion of `fmt` has read back its field of `u`. -/
def read_back (u : tm) : List Char → tm → tm
  | [], t => t
  | f :: fmt, t =>
    if f ≠ '%' then read_back u fmt t
    else
      match fmt with
      | [] => t
      | c :: fmt => read_back u fmt (set_field c u t)

/-- The format expresses all of year, month, day, hour, minute and second. -/
def expresses_all (fmt : List Char) : Bool :=
  has_conversion 'Y' fmt && has_conversion 'm' fmt && has_conversion 'd' fmt &&
  has_conversion 'H' fmt && has_conversion 'M' fmt && has_conversion 'S' fmt

/-- The text rendered for the format does not start with a digit: the format is
empty, or starts with an ordinary character that is not a digit, or with `%%`. -/
def no_digit_first : List Char → Bool
  | [] => true
  | f :: fmt =>
    if f ≠ '%' then !isdigit f
    else
      match fmt with
      | [] => true
      | c :: _ => c = '%'

/-- No digit follows a year: every `%Y` of the format is followed by the end of
the format, by an ordinary character that is not a digit, or by `%%`. -/
def year_delimited : List Char → Bool
  | [] => true
  | f :: fmt =>
    if f ≠ '%' then year_delimited fmt
    else
      match fmt with
      | [] => true
      | c :: fmt => (c != 'Y' || no_digit_first fmt) && year_delimited fmt

/-- The calendar ranges of the fields `gmtime_r` produces for the years 0 to 9999. -/
def civil_fields (u : tm) : Prop :=
  0 ≤ u.tm_year + 1900 ∧ u.tm_year + 1900 ≤ 9999 ∧ 0 ≤ u.tm_mon ∧ u.tm_mon ≤ 11 ∧
  1 ≤ u.tm_mday ∧ u.tm_mday ≤ 31 ∧ 0 ≤ u.tm_hour ∧ u.tm_hour ≤ 23 ∧
  0 ≤ u.tm_min ∧ u.tm_min ≤ 59 ∧ 0 ≤ u.tm_sec ∧ u.tm_sec ≤ 59

/-! ## The calendar -/

set_option maxHeartbeats 1600000 in
/-- Within a 400-year era, the year of a day is recovered from the day number by
the division formula of `civil_from_days`. -/
theorem year_of_era_formula (y d : Int) (hy0 : 0 ≤ y) (hy1 : y ≤ 399) (hd0 : 0 ≤ d)
    (hd1 : d ≤ 365)
    (hleap : d = 365 → (y + 1) % 4 = 0 ∧ ((y + 1) % 100 ≠ 0 ∨ y = 399)) :
    (365 * y + y / 4 - y / 100 + d - (365 * y + y / 4 - y / 100 + d) / 1460
      + (365 * y + y / 4 - y / 100 + d) / 36524
      - (365 * y + y / 4 - y / 100 + d) / 146096) / 365 = y := by
  interval_cases y <;> omega

/-- Every day of a 400-year era lies in one of its 400 years (which start in March). -/
theorem era_split (doe : Int) (h0 : 0 ≤ doe) (h1 : doe ≤ 146096) :
    ∃ y d : Int, 0 ≤ y ∧ y ≤ 399 ∧ 0 ≤ d ∧ d ≤ 365 ∧
      (d = 365 → (y + 1) % 4 = 0 ∧ ((y + 1) % 100 ≠ 0 ∨ y = 399)) ∧
      doe = 365 * y + y / 4 - y / 100 + d := by
  by_cases hc : doe = 146096
  · exact ⟨399, 365, by omega, by omega, by omega, by omega, by omega, by omega⟩
  · obtain ⟨b, hb⟩ : ∃ b, b = doe / 36524 := ⟨_, rfl⟩
    obtain ⟨c, hc⟩ : ∃ c, c = doe % 36524 / 1461 := ⟨_, rfl⟩
    by_cases hk : (doe % 36524) % 1461 = 1460
    · have h4 : (100 * b + 4 * c + 3) / 4 = 25 * b + c := by omega
      have h100 : (100 * b + 4 * c + 3) / 100 = b := by omega
      have hdiv : (100 * b + 4 * c + 3 + 1) % 4 = 0 := by omega
      refine ⟨100 * b + 4 * c + 3, 365, ?_, ?_, ?_, ?_, ?_, ?_⟩
      · omega
      · omega
      · omega
      · omega
      · intro _
        refine ⟨hdiv, ?_⟩
        omega
      · rw [h4, h100]; omega
    · obtain ⟨k, hk⟩ : ∃ k, k = (doe % 36524) % 1461 / 365 := ⟨_, rfl⟩
      have hk3 : 0 ≤ k ∧ k ≤ 3 := by omega
      have h4 : (100 * b + 4 * c + k) / 4 = 25 * b + c := by omega
      have h100 : (100 * b + 4 * c + k) / 100 = b := by omega
      refine ⟨100 * b + 4 * c + k, (doe % 36524) % 1461 % 365, ?_, ?_, ?_, ?_, ?_, ?_⟩
      · omega
      · omega
      · omega
      · omega
      · omega
      · rw [h4, h100]; omega

/-- The days of a date given by its era, year of the era, and month counted from March. -/
theorem days_from_civil_march (era yoe mp d : Int) (hy0 : 0 ≤ yoe) (hy1 : yoe ≤ 399)
    (hm0 : 0 ≤ mp) (hm1 : mp ≤ 11) :
    days_from_civil (if mp < 10 then yoe + era * 400 else yoe + era * 400 + 1)
        (if mp < 10 then mp + 3 else mp - 9) d
      = era * 146097 + (yoe * 365 + yoe / 4 - yoe / 100 + ((153 * mp + 2) / 5 + d - 1)) - 719468 := by
  have he : (yoe + era * 400) / 400 = era := by omega
  have hr : (yoe + era * 400) % 400 = yoe := by omega
  by_cases h : mp < 10
  · have h2 : ¬ (mp + 3 ≤ 2) := by omega
    simp only [days_from_civil, h, h2, if_true, if_false, he, hr]
    have : mp + 3 - 3 = mp := by omega
    rw [this]
  · have h2 : mp - 9 ≤ 2 := by omega
    simp only [days_from_civil, h, h2, if_true, if_false]
    have h3 : yoe + era * 400 + 1 - 1 = yoe + era * 400 := by omega
    have : mp - 9 + 9 = mp := by omega
    rw [h3, this, he, hr]

/-- The date of a day number, by era, year of the era and month counted from March. -/
theorem civil_from_days_march (z : Int) :
    ∃ era yoe doy mp : Int, 0 ≤ yoe ∧ yoe ≤ 399 ∧ 0 ≤ mp ∧ mp ≤ 11 ∧ 0 ≤ doy ∧ doy ≤ 365 ∧
      mp = (5 * doy + 2) / 153 ∧
      z = era * 146097 + (yoe * 365 + yoe / 4 - yoe / 100 + doy) - 719468 ∧
      civil_from_days z =
        (if mp < 10 then yoe + era * 400 else yoe + era * 400 + 1,
         if mp < 10 then mp + 3 else mp - 9, doy - (153 * mp + 2) / 5 + 1) := by
  obtain ⟨y0, d0, hy0, hy1, hd0, hd1, hleap, hdoe⟩ :=
    era_split ((z + 719468) % 146097) (by omega) (by omega)
  have hf := year_of_era_formula y0 d0 hy0 hy1 hd0 hd1 hleap
  rw [← hdoe] at hf
  have hdoy : (z + 719468) % 146097 - (365 * y0 + y0 / 4 - y0 / 100) = d0 := by omega
  refine ⟨(z + 719468) / 146097, y0, d0, (5 * d0 + 2) / 153, hy0, hy1, by omega, by omega,
    hd0, hd1, rfl, by omega, ?_⟩
  simp only [civil_from_days, hf, hdoy]
  have hm : 0 ≤ (5 * d0 + 2) / 153 ∧ (5 * d0 + 2) / 153 ≤ 11 := by omega
  generalize (5 * d0 + 2) / 153 = mp at hm ⊢
  by_cases h : mp < 10
  · have h2 : ¬ (mp + 3 ≤ 2) := by omega
    simp only [h, h2, if_true, if_false]
  · have h2 : mp - 9 ≤ 2 := by omega
    simp only [h, h2, if_true, if_false]

theorem days_from_civil_of_days (z : Int) :
    days_from_civil (civil_from_days z).1 (civil_from_days z).2.1 1
      + ((civil_from_days z).2.2 - 1) = z := by
  obtain ⟨era, yoe, doy, mp, hy0, hy1, hm0, hm1, _, _, _, hz, hc⟩ := civil_from_days_march z
  rw [hc]
  simp only []
  rw [days_from_civil_march era yoe mp 1 hy0 hy1 hm0 hm1]
  omega

theorem is_leap_iff (y : Int) : is_leap y = true ↔ y % 4 = 0 ∧ (y % 100 ≠ 0 ∨ y % 400 = 0) := by
  simp [is_leap]

theorem month_of_day_of_year (mp d : Int) (hm0 : 0 ≤ mp) (hm1 : mp ≤ 11) (hd0 : 1 ≤ d)
    (hd1 : d ≤ 31) (h30 : mp = 1 ∨ mp = 3 ∨ mp = 6 ∨ mp = 8 → d ≤ 30) (h29 : mp = 11 → d ≤ 29) :
    (5 * ((153 * mp + 2) / 5 + d - 1) + 2) / 153 = mp := by
  interval_cases mp <;> omega

theorem civil_from_days_of_civil (y m d : Int) (hm0 : 1 ≤ m) (hm1 : m ≤ 12) (hd0 : 1 ≤ d)
    (hd1 : d ≤ days_in_month y m) : civil_from_days (days_from_civil y m d) = (y, m, d) := by
  -- the date, counted from March
  obtain ⟨mp, hmp⟩ : ∃ mp : Int, mp = if m ≤ 2 then m + 9 else m - 3 := ⟨_, rfl⟩
  obtain ⟨y1, hy1⟩ : ∃ y1 : Int, y1 = if m ≤ 2 then y - 1 else y := ⟨_, rfl⟩
  have hmp0 : 0 ≤ mp ∧ mp ≤ 11 := by split_ifs at hmp <;> omega
  have hlen : d ≤ 31 ∧ (mp = 1 ∨ mp = 3 ∨ mp = 6 ∨ mp = 8 → d ≤ 30) ∧ (mp = 11 → d ≤ 29) ∧
      (mp = 11 → d = 29 → y % 4 = 0 ∧ (y % 100 ≠ 0 ∨ y % 400 = 0)) := by
    unfold days_in_month at hd1
    by_cases hl : is_leap y = true
    · have := (is_leap_iff y).1 hl
      split_ifs at hd1 hmp <;> omega
    · have hl2 := mt (is_leap_iff y).2 hl
      split_ifs at hd1 hmp <;> omega
  obtain ⟨h31, h30, h29, hleap⟩ := hlen
  have hmonth := month_of_day_of_year mp d hmp0.1 hmp0.2 hd0 h31 h30 h29
  obtain ⟨doy, hdoy⟩ : ∃ doy : Int, doy = (153 * mp + 2) / 5 + d - 1 := ⟨_, rfl⟩
  obtain ⟨era, hera⟩ : ∃ era : Int, era = y1 / 400 := ⟨_, rfl⟩
  obtain ⟨yoe, hyoe⟩ : ∃ yoe : Int, yoe = y1 % 400 := ⟨_, rfl⟩
  have hdoy0 : 0 ≤ doy ∧ doy ≤ 365 := by omega
  have hyoe0 : 0 ≤ yoe ∧ yoe ≤ 399 := by omega
  have hfeb : doy = 365 → (yoe + 1) % 4 = 0 ∧ ((yoe + 1) % 100 ≠ 0 ∨ yoe = 399) := by
    intro h
    have h11 : mp = 11 := by omega
    have hd : d = 29 := by omega
    have hy : y1 = y - 1 := by split_ifs at hmp hy1 <;> omega
    have := hleap h11 hd
    omega
  have hf := year_of_era_formula yoe doy hyoe0.1 hyoe0.2 hdoy0.1 hdoy0.2 hfeb
  obtain ⟨doe, hdoe⟩ : ∃ doe : Int, doe = 365 * yoe + yoe / 4 - yoe / 100 + doy := ⟨_, rfl⟩
  rw [← hdoe] at hf
  have hdoe0 : 0 ≤ doe ∧ doe ≤ 146096 := by omega
  have hz : days_from_civil y m d = era * 146097 + doe - 719468 := by
    simp only [days_from_civil, ← hmp, ← hy1, ← hera, ← hyoe]
    omega
  have he : (era * 146097 + doe - 719468 + 719468) / 146097 = era := by omega
  have hr : (era * 146097 + doe - 719468 + 719468) % 146097 = doe := by omega
  have hdd : doe - (365 * yoe + yoe / 4 - yoe / 100) = doy := by omega
  rw [hz]
  simp only [civil_from_days, he, hr, hf, hdd]
  rw [← hdoy] at hmonth
  rw [hmonth]
  have hy : yoe + era * 400 = y1 := by omega
  rw [hy]
  split_ifs at hmp hy1 with h
  · have h1 : ¬ (mp < 10) := by omega
    have h2 : mp - 9 ≤ 2 := by omega
    simp only [h1, h2, if_true, if_false]
    refine Prod.ext ?_ (Prod.ext ?_ ?_) <;> simp only [] <;> omega
  · have h1 : mp < 10 := by omega
    have h2 : ¬ (mp + 3 ≤ 2) := by omega
    simp only [h1, h2, if_true, if_false]
    refine Prod.ext ?_ (Prod.ext ?_ ?_) <;> simp only [] <;> omega


/-! ## Printing and reading numbers -/

theorem digit_char (k : Nat) (h : k < 10) :
    isdigit (Char.ofNat ('0'.toNat + k)) = true ∧
      (Char.ofNat ('0'.toNat + k)).toNat - '0'.toNat = k := by
  interval_cases k <;> decide

theorem isdigit_not_isspace (c : Char) (h : isdigit c = true) : isspace c = false := by
  cases hs : isspace c with
  | false => rfl
  | true =>
    simp only [isspace, Bool.or_eq_true, decide_eq_true_eq] at hs
    rcases hs with ((((rfl | rfl) | rfl) | rfl) | rfl) | rfl <;> revert h <;> decide

theorem isdigit_ne_NUL (c : Char) (h : isdigit c = true) : c ≠ NUL := by
  rintro rfl
  revert h
  decide

theorem digits_value_append (acc : Nat) (xs ys : List Char) :
    digits_value acc (xs ++ ys) = digits_value (digits_value acc xs) ys := by
  simp [digits_value, List.foldl_append]

theorem digits_value_mono (acc : Nat) (ds : List Char) : acc ≤ digits_value acc ds := by
  induction ds generalizing acc with
  | nil => simp [digits_value]
  | cons c ds ih =>
    have := ih (acc * 10 + (c.toNat - '0'.toNat))
    simp only [digits_value, List.foldl_cons] at this ⊢
    omega

theorem get_number_loop_step (hi n val : Nat) (c : Char) (rp : List Char) :
    get_number_loop hi (n + 1) val (c :: rp) =
      if 0 < n ∧ (val * 10 + (c.toNat - '0'.toNat)) * 10 ≤ hi ∧
          rp.head?.map isdigit = some true then
        get_number_loop hi n (val * 10 + (c.toNat - '0'.toNat)) rp
      else (val * 10 + (c.toNat - '0'.toNat), rp) := rfl

/-- The digit loop of `get_number` reads a string of at most `n` digits whole
when its value does not exceed `hi` and the string has `n` digits or no digit
follows it. -/
theorem get_number_loop_digits (hi : Nat) (ds : List Char) :
    ∀ (n acc : Nat) (rest : List Char), ds ≠ [] → ds.length ≤ n →
      (∀ c ∈ ds, isdigit c = true) →
      (ds.length = n ∨ rest.head?.map isdigit ≠ some true) →
      digits_value acc ds ≤ hi →
      get_number_loop hi n acc (ds ++ rest) = (digits_value acc ds, rest) := by
  induction ds with
  | nil => intro n acc rest h; exact absurd rfl h
  | cons c ds ih =>
    intro n acc rest _ hlen hdig hstop hval
    obtain ⟨n, rfl⟩ : ∃ m, n = m + 1 := ⟨n - 1, by simp at hlen; omega⟩
    cases ds with
    | nil =>
      have hno : ¬ (0 < n ∧ (acc * 10 + (c.toNat - '0'.toNat)) * 10 ≤ hi ∧
          rest.head?.map isdigit = some true) := by
        rintro ⟨h0, _, h⟩
        rcases hstop with h1 | h1
        · simp at h1; omega
        · exact h1 h
      rw [List.cons_append, List.nil_append, get_number_loop_step, if_neg hno]
      simp [digits_value]
    | cons d ds =>
      have hd : isdigit d = true := hdig d (by simp)
      have hmono := digits_value_mono
        ((acc * 10 + (c.toNat - '0'.toNat)) * 10 + (d.toNat - '0'.toNat)) ds
      have hv : digits_value acc (c :: d :: ds)
          = digits_value ((acc * 10 + (c.toNat - '0'.toNat)) * 10 + (d.toNat - '0'.toNat)) ds := by
        simp [digits_value]
      have hcond : 0 < n ∧ (acc * 10 + (c.toNat - '0'.toNat)) * 10 ≤ hi ∧
          (d :: (ds ++ rest)).head?.map isdigit = some true := by
        refine ⟨by simp at hlen; omega, by omega, by simp [hd]⟩
      have hrec := ih n (acc * 10 + (c.toNat - '0'.toNat)) rest (by simp)
        (by simp at hlen ⊢; omega)
        (fun x hx => hdig x (by simp at hx ⊢; right; exact hx))
        (by
          rcases hstop with h1 | h1
          · left; simp at h1 ⊢; omega
          · right; exact h1)
        (by simpa [digits_value] using hval)
      rw [List.cons_append] at hrec
      rw [List.cons_append, List.cons_append, get_number_loop_step, if_pos hcond, hrec]
      simp [digits_value]

theorem digits_value_lt (ds : List Char) :
    ∀ acc, (∀ c ∈ ds, isdigit c = true) →
      digits_value acc ds < (acc + 1) * 10 ^ ds.length := by
  induction ds with
  | nil => intro acc _; simp [digits_value]
  | cons c ds ih =>
    intro acc hdig
    have hc : c.toNat - '0'.toNat < 10 := by
      have h := hdig c (by simp)
      simp only [isdigit, Bool.and_eq_true, decide_eq_true_eq] at h
      have h1 : c.toNat ≤ '9'.toNat := h.2
      have h2 : ('9' : Char).toNat = 57 := by decide
      have h3 : ('0' : Char).toNat = 48 := by decide
      omega
    have := ih (acc * 10 + (c.toNat - '0'.toNat)) (fun x hx => hdig x (by simp [hx]))
    simp only [digits_value, List.foldl_cons, List.length_cons] at this ⊢
    calc List.foldl (fun v c => v * 10 + (c.toNat - '0'.toNat)) (acc * 10 + (c.toNat - '0'.toNat)) ds
        < (acc * 10 + (c.toNat - '0'.toNat) + 1) * 10 ^ ds.length := this
      _ ≤ ((acc + 1) * 10) * 10 ^ ds.length := Nat.mul_le_mul_right _ (by omega)
      _ = (acc + 1) * 10 ^ (ds.length + 1) := by rw [pow_succ]; ring

/-- The digits `decimal_loop` produces: a non-empty string of digits whose value
is `n`, no longer than any number of digits that can hold `n`. -/
theorem decimal_loop_digits (fuel : Nat) :
    ∀ (n : Nat) (acc : List Char), n < 10 ^ fuel → 0 < fuel →
      ∃ ds, decimal_loop fuel n acc = ds ++ acc ∧ ds ≠ [] ∧ (∀ c ∈ ds, isdigit c = true) ∧
        digits_value 0 ds = n ∧ ∀ j, 0 < j → n < 10 ^ j → ds.length ≤ j := by
  induction fuel with
  | zero => intro n acc _ h; omega
  | succ fuel ih =>
    intro n acc hn _
    have hd := digit_char (n % 10) (Nat.mod_lt _ (by decide))
    simp only [decimal_loop]
    by_cases h0 : n / 10 = 0
    · rw [if_pos h0]
      refine ⟨[Char.ofNat ('0'.toNat + n % 10)], rfl, by simp, ?_, ?_, ?_⟩
      · intro c hc
        simp only [List.mem_singleton] at hc
        rw [hc]; exact hd.1
      · simp only [digits_value, List.foldl_cons, List.foldl_nil, hd.2]
        omega
      · intro j hj _
        simpa using hj
    · rw [if_neg h0]
      have hfuel : 0 < fuel := by
        rcases Nat.eq_zero_or_pos fuel with h | h
        · subst h; simp at hn; omega
        · exact h
      have hn10 : n / 10 < 10 ^ fuel := by
        rw [pow_succ] at hn
        omega
      obtain ⟨ds, hds, hne, hdig, hval, hlen⟩ := ih (n / 10) (Char.ofNat ('0'.toNat + n % 10) :: acc) hn10 hfuel
      refine ⟨ds ++ [Char.ofNat ('0'.toNat + n % 10)], by rw [hds]; simp, by simp, ?_, ?_, ?_⟩
      · intro c hc
        rcases List.mem_append.1 hc with h | h
        · exact hdig c h
        · simp only [List.mem_singleton] at h
          rw [h]; exact hd.1
      · rw [digits_value_append, hval]
        simp only [digits_value, List.foldl_cons, List.foldl_nil, hd.2]
        omega
      · intro j hj hnj
        obtain ⟨j, rfl⟩ : ∃ i, j = i + 1 := ⟨j - 1, by omega⟩
        have hj0 : 0 < j := by
          rcases Nat.eq_zero_or_pos j with h | h
          · subst h; simp at hnj; omega
          · exact h
        have : n / 10 < 10 ^ j := by
          rw [pow_succ] at hnj
          omega
        have := hlen j hj0 this
        simp
        omega
theorem digits_value_zeros (k : Nat) : digits_value 0 (List.replicate k '0') = 0 := by
  induction k with
  | zero => rfl
  | succ k ih =>
    simp only [List.replicate_succ, digits_value, List.foldl_cons] at ih ⊢
    exact ih

/-- A number that is not negative is printed as a non-empty string of digits of
that value, no longer than any field that holds both the width and the number. -/
theorem number_digits (width : Nat) (v : Int) (hv0 : 0 ≤ v) (hv1 : v < 10 ^ 20) :
    (number width v ≠ []) ∧ (∀ c ∈ number width v, isdigit c = true) ∧
      digits_value 0 (number width v) = v.toNat ∧
      ∀ j, 0 < j → width ≤ j → v < 10 ^ j → (number width v).length ≤ j := by
  have hn : v.natAbs < 10 ^ 20 := by omega
  obtain ⟨ds, hds, hne, hdig, hval, hlen⟩ := decimal_loop_digits 20 v.natAbs [] hn (by decide)
  have hnum : number width v = List.replicate (width - ds.length) '0' ++ ds := by
    simp only [number, hds, List.append_nil, if_neg (not_lt.2 hv0)]
  rw [hnum]
  refine ⟨by simp [hne], ?_, ?_, ?_⟩
  · intro c hc
    rcases List.mem_append.1 hc with h | h
    · rw [(List.mem_replicate.1 h).2]; decide
    · exact hdig c h
  · rw [digits_value_append, digits_value_zeros, hval]
    omega
  · intro j hj hw hvj
    have hnat : v.natAbs < 10 ^ j := by
      have h1 : ((v.natAbs : Nat) : Int) < ((10 ^ j : Nat) : Int) := by
        rw [Int.natAbs_of_nonneg hv0]
        push_cast
        exact hvj
      exact Int.ofNat_lt.1 h1
    have := hlen j hj hnat
    simp only [List.length_append, List.length_replicate]
    omega

theorem number_length_ge (width : Nat) (v : Int) (hv0 : 0 ≤ v) :
    width ≤ (number width v).length := by
  simp only [number, if_neg (not_lt.2 hv0), List.length_append, List.length_replicate]
  omega

/-- A number printed with as many digits as `get_number` may read, or followed by
something other than a digit, is read back whole. -/
theorem get_number_number (lo hi n width : Nat) (v : Int) (rest : List Char)
    (hlo : (lo : Int) ≤ v) (hhi : v ≤ hi) (hn : v < 10 ^ n) (hn0 : 0 < n) (hw : width ≤ n)
    (hv1 : v < 10 ^ 20)
    (hstop : (number width v).length = n ∨ rest.head?.map isdigit ≠ some true) :
    get_number lo hi n (number width v ++ rest) = some (v.toNat, rest) := by
  have hv0 : 0 ≤ v := by omega
  obtain ⟨hne, hdig, hval, hlen⟩ := number_digits width v hv0 hv1
  have hloop := get_number_loop_digits hi (number width v) n 0 rest hne
    (hlen n hn0 hw hn) hdig hstop (by rw [hval]; omega)
  obtain ⟨c, cs, hcs⟩ : ∃ c cs, number width v = c :: cs := by
    cases h : number width v with
    | nil => exact absurd h hne
    | cons c cs => exact ⟨c, cs, rfl⟩
  have hc : isdigit c = true := hdig c (by rw [hcs]; simp)
  have hsp : isspace c = false := isdigit_not_isspace c hc
  have hdrop : (number width v ++ rest).dropWhile isspace = number width v ++ rest := by
    rw [hcs, List.cons_append, List.dropWhile_cons, hsp]
    simp
  have hhead : (number width v ++ rest).head?.map isdigit = some true := by
    rw [hcs]; simp [hc]
  simp only [get_number, hdrop, hhead, if_true, hloop, hval]
  have : ¬ (v.toNat < lo ∨ hi < v.toNat) := by omega
  rw [if_neg this]

/-- A field from 0 to 99 is printed with exactly two digits. -/
theorem number_two_length (v : Int) (h0 : 0 ≤ v) (h1 : v ≤ 99) : (number 2 v).length = 2 := by
  obtain ⟨_, _, _, hlen⟩ := number_digits 2 v h0 (by omega)
  have := hlen 2 (by decide) (by decide) (by omega)
  have := number_length_ge 2 v h0
  omega

/-- A year from 1000 to 9999 is printed with exactly four digits. -/
theorem number_year_length (v : Int) (h0 : 1000 ≤ v) (h1 : v ≤ 9999) :
    (number 1 v).length = 4 := by
  obtain ⟨_, hdig, hval, hlen⟩ := number_digits 1 v (by omega) (by omega)
  have hle := hlen 4 (by decide) (by decide) (by omega)
  have hlt := digits_value_lt (number 1 v) 0 hdig
  rw [hval] at hlt
  have h3 : ¬ (number 1 v).length ≤ 3 := by
    intro h
    have : 10 ^ (number 1 v).length ≤ 10 ^ 3 := Nat.pow_le_pow_right (by decide) h
    omega
  omega

theorem number_head_digit (width : Nat) (v : Int) (rest : List Char) (h0 : 0 ≤ v)
    (h1 : v < 10 ^ 20) :
    (number width v ++ rest).dropWhile isspace = number width v ++ rest ∧
    (∀ c ∈ number width v, c ≠ NUL) := by
  obtain ⟨hne, hdig, _, _⟩ := number_digits width v h0 h1
  obtain ⟨c, cs, hcs⟩ : ∃ c cs, number width v = c :: cs := by
    cases h : number width v with
    | nil => exact absurd h hne
    | cons c cs => exact ⟨c, cs, rfl⟩
  have hc : isdigit c = true := hdig c (by rw [hcs]; simp)
  have hsp : isspace c = false := isdigit_not_isspace c hc
  refine ⟨?_, fun x hx => isdigit_ne_NUL x (hdig x hx)⟩
  rw [hcs, List.cons_append, List.dropWhile_cons, hsp]
  simp

/-! ## The matching loop of `strptime` -/

theorem strptime_loop_space (f : Char) (fmt rp : List Char) (t : tm) (h : isspace f = true) :
    strptime_loop (f :: fmt) rp t = strptime_loop fmt (rp.dropWhile isspace) t := by
  rw [strptime_loop.eq_def]
  simp only [if_pos h]

theorem strptime_loop_char (f : Char) (fmt rp : List Char) (t : tm) (h1 : isspace f = false)
    (h2 : f ≠ '%') :
    strptime_loop (f :: fmt) rp t =
      match rp with
      | r :: rp => if r = f then strptime_loop fmt rp t else none
      | [] => none := by
  rw [strptime_loop.eq_def]
  simp only [h1, Bool.false_eq_true, if_false, if_pos h2]

theorem strptime_loop_percent_end (rp : List Char) (t : tm) :
    strptime_loop ['%'] rp t = none := by
  rw [strptime_loop.eq_def]
  simp only [show isspace '%' = false by decide, Bool.false_eq_true, if_false, ne_eq,
    not_true_eq_false]

theorem strptime_loop_conv (c : Char) (fmt rp : List Char) (t : tm) :
    strptime_loop ('%' :: c :: fmt) rp t =
      if c = '%' then
        match rp with
        | r :: rp => if r = '%' then strptime_loop fmt rp t else none
        | [] => none
      else if c = 'Y' then
        (get_number 0 9999 4 rp).bind fun r =>
          strptime_loop fmt r.2 { t with tm_year := (r.1 : Int) - 1900 }
      else if c = 'm' then
        (get_number 1 12 2 rp).bind fun r =>
          strptime_loop fmt r.2 { t with tm_mon := (r.1 : Int) - 1 }
      else if c = 'd' then
        (get_number 1 31 2 rp).bind fun r =>
          strptime_loop fmt r.2 { t with tm_mday := (r.1 : Int) }
      else if c = 'H' then
        (get_number 0 23 2 rp).bind fun r =>
          strptime_loop fmt r.2 { t with tm_hour := (r.1 : Int) }
      else if c = 'M' then
        (get_number 0 59 2 rp).bind fun r =>
          strptime_loop fmt r.2 { t with tm_min := (r.1 : Int) }
      else if c = 'S' then
        (get_number 0 61 2 rp).bind fun r =>
          strptime_loop fmt r.2 { t with tm_sec := (r.1 : Int) }
      else none := by
  rw [strptime_loop.eq_def]
  simp only [show isspace '%' = false by decide, Bool.false_eq_true, if_false, ne_eq,
    not_true_eq_false]

theorem get_number_range (lo hi n : Nat) (rp : List Char) (r : Nat × List Char)
    (h : get_number lo hi n rp = some r) : lo ≤ r.1 ∧ r.1 ≤ hi := by
  simp only [get_number] at h
  split_ifs at h with h1 h2
  simp only [Option.some.injEq] at h
  rw [← h]
  omega

theorem strptime_loop_fields_bounded (n : Nat) :
    ∀ (fmt : List Char), fmt.length ≤ n → ∀ (rp : List Char) (t : tm) (r : List Char × tm),
      strptime_loop fmt rp t = some r → matched_fields t → matched_fields r.2 := by
  induction n with
  | zero =>
    intro fmt hlen rp t r h ht
    have : fmt = [] := List.length_eq_zero.1 (by omega)
    subst this
    simp only [strptime_loop, Option.some.injEq] at h
    rw [← h]; exact ht
  | succ n ih =>
    intro fmt hlen rp t r h ht
    cases fmt with
    | nil =>
      simp only [strptime_loop, Option.some.injEq] at h
      rw [← h]; exact ht
    | cons f fmt =>
      simp only [List.length_cons] at hlen
      by_cases hsp : isspace f = true
      · rw [strptime_loop_space f fmt rp t hsp] at h
        exact ih fmt (by omega) _ _ _ h ht
      · by_cases hpc : f = '%'
        · subst hpc
          cases fmt with
          | nil => rw [strptime_loop_percent_end] at h; simp at h
          | cons c fmt =>
            simp only [List.length_cons] at hlen
            rw [strptime_loop_conv] at h
            split_ifs at h
            · cases rp with
              | nil => simp at h
              | cons x rp =>
                simp only at h
                split_ifs at h
                exact ih fmt (by omega) _ _ _ h ht
            all_goals
              obtain ⟨q, hq, hrec⟩ := Option.bind_eq_some.1 h
              have hr := get_number_range _ _ _ _ _ hq
              refine ih fmt (by omega) _ _ _ hrec ?_
              unfold matched_fields at ht ⊢
              simp only
              omega
        · rw [strptime_loop_char f fmt rp t (by simpa using hsp) hpc] at h
          cases rp with
          | nil => simp at h
          | cons x rp =>
            simp only at h
            split_ifs at h
            exact ih fmt (by omega) _ _ _ h ht

/-- Deriving the weekday and the day of the year leaves the other fields as
they are. -/
theorem matched_fields_derive_days (format : List Char) (t : tm) :
    matched_fields (derive_days format t) ↔ matched_fields t := by
  unfold derive_days matched_fields
  split_ifs <;> rfl

theorem seconds_of_fields_derive_days (format : List Char) (t : tm) :
    seconds_of_fields (derive_days format t) = seconds_of_fields t := by
  unfold derive_days seconds_of_fields
  split_ifs <;> rfl

theorem has_conversion_white_space (c : Char) (format : List Char)
    (hws : ∀ x ∈ format, isspace x = true) : has_conversion c format = false := by
  induction format with
  | nil => rw [has_conversion.eq_def]
  | cons f fmt ih =>
    have hf : f ≠ '%' := by
      intro hf
      have := hws f (List.mem_cons_self _ _)
      rw [hf] at this
      exact absurd this (by decide)
    rw [has_conversion.eq_def]
    simp only [hf, ne_eq, not_false_eq_true, if_true]
    exact ih (fun x hx => hws x (List.mem_cons_of_mem _ hx))

/-- A format of white space only has no conversion, so nothing is derived. -/
theorem derive_days_white_space (format : List Char) (t : tm)
    (hws : ∀ x ∈ format, isspace x = true) : derive_days format t = t := by
  unfold derive_days
  simp [has_conversion_white_space _ format hws]

/-- The fields `strptime` leaves, starting from the zero breakdown, are within
the ranges its conversions accept. -/
theorem strptime_fields (value format : List Char) (k : Nat) (t : tm)
    (h : strptime value format tm.zero = some (k, t)) : matched_fields t := by
  unfold strptime at h
  obtain ⟨r, hr, hk⟩ := Option.map_eq_some'.1 h
  have := strptime_loop_fields_bounded format.length format (le_refl _) value tm.zero r hr
    (by unfold matched_fields tm.zero; simp)
  simp only [Prod.mk.injEq] at hk
  rw [← hk.2]
  exact (matched_fields_derive_days format r.2).2 this

/-! ## `gmtime_r` and `mktime` of the reference library -/

theorem days_from_civil_day (y m d : Int) :
    days_from_civil y m d = days_from_civil y m 1 + (d - 1) := by
  simp only [days_from_civil]
  omega

theorem days_from_civil_bounds (y m : Int) (hy0 : 0 ≤ y) (hy1 : y ≤ 9999) (hm0 : 1 ≤ m)
    (hm1 : m ≤ 12) : -719528 ≤ days_from_civil y m 1 ∧ days_from_civil y m 1 ≤ 2932866 := by
  simp only [days_from_civil]
  split_ifs <;> omega

/-- The seconds computed from valid fields are the instant whose UTC breakdown
shows those fields. -/
theorem gmtime_r_seconds_of_fields (t : tm) (hvalid : valid_date_time t)
    (hy0 : -1900 ≤ t.tm_year) (hy1 : t.tm_year ≤ 8099) :
    ∃ u, gmtime_r (seconds_of_fields t) = some u ∧ same_date_time u t := by
  obtain ⟨hm0, hm1, hd0, hd1, hh0, hh1, hmi0, hmi1, hs0, hs1⟩ := hvalid
  have hq : t.tm_mon / 12 = 0 := by omega
  have hr : t.tm_mon % 12 + 1 = t.tm_mon + 1 := by omega
  have hciv := civil_from_days_of_civil (t.tm_year + 1900) (t.tm_mon + 1) t.tm_mday
    (by omega) (by omega) hd0 hd1
  have hday := days_from_civil_day (t.tm_year + 1900) (t.tm_mon + 1) t.tm_mday
  obtain ⟨z, hz⟩ : ∃ z, z = days_from_civil (t.tm_year + 1900) (t.tm_mon + 1) 1 := ⟨_, rfl⟩
  rw [← hz] at hday
  have hsec : seconds_of_fields t
      = (z + (t.tm_mday - 1)) * 86400 + t.tm_hour * 3600 + t.tm_min * 60 + t.tm_sec := by
    simp only [seconds_of_fields, hq, hr, add_zero, hz]
  have hdiv : seconds_of_fields t / 86400 = days_from_civil (t.tm_year + 1900) (t.tm_mon + 1) t.tm_mday := by
    rw [hsec, hday]; omega
  have hmod : seconds_of_fields t % 86400 = t.tm_hour * 3600 + t.tm_min * 60 + t.tm_sec := by
    rw [hsec]; omega
  have hrange : INT_MIN ≤ t.tm_year + 1900 - 1900 ∧ t.tm_year + 1900 - 1900 ≤ INT_MAX := by
    unfold INT_MIN INT_MAX
    omega
  obtain ⟨rem, hrem⟩ : ∃ rem, rem = t.tm_hour * 3600 + t.tm_min * 60 + t.tm_sec := ⟨_, rfl⟩
  rw [← hrem] at hmod
  have hg : gmtime_r (seconds_of_fields t) =
      some { tm_sec := rem % 60, tm_min := rem / 60 % 60, tm_hour := rem / 3600,
             tm_mday := t.tm_mday, tm_mon := t.tm_mon + 1 - 1,
             tm_year := t.tm_year + 1900 - 1900,
             tm_wday := (days_from_civil (t.tm_year + 1900) (t.tm_mon + 1) t.tm_mday + 4) % 7,
             tm_yday := days_from_civil (t.tm_year + 1900) (t.tm_mon + 1) t.tm_mday
               - days_from_civil (t.tm_year + 1900) 1 1,
             tm_isdst := 0 } := by
    simp only [gmtime_r, hdiv, hmod, hciv, hrange, and_self, if_true]
  refine ⟨_, hg, ?_⟩
  unfold same_date_time
  simp only
  refine ⟨by omega, by omega, trivial, by omega, by omega, by omega⟩

/-- Instants within a few hundred thousand years of the epoch have a UTC
breakdown: `gmtime_r` does not fail on them. -/
theorem gmtime_r_isSome (v : Int) (h0 : -2 ^ 44 ≤ v) (h1 : v ≤ 2 ^ 44) :
    (gmtime_r v).isSome = true := by
  obtain ⟨era, yoe, doy, mp, hy0, hy1, hm0, hm1, hd0, hd1, _, hz, hc⟩ :=
    civil_from_days_march (v / 86400)
  have hrange : INT_MIN ≤ (civil_from_days (v / 86400)).1 - 1900 ∧
      (civil_from_days (v / 86400)).1 - 1900 ≤ INT_MAX := by
    rw [hc]
    unfold INT_MIN INT_MAX
    simp only
    split_ifs <;> omega
  simp only [gmtime_r, hrange, and_self, if_true, Option.isSome_some]

theorem seconds_of_fields_bounds (t : tm) (ht : matched_fields t) :
    -62167305600 ≤ seconds_of_fields t ∧ seconds_of_fields t ≤ 253402387261 := by
  obtain ⟨hy0, hy1, hm0, hm1, hd0, hd1, hh0, hh1, hmi0, hmi1, hs0, hs1⟩ := ht
  have hq : t.tm_mon / 12 = 0 := by omega
  have hr : t.tm_mon % 12 + 1 = t.tm_mon + 1 := by omega
  have hb := days_from_civil_bounds (t.tm_year + 1900) (t.tm_mon + 1) (by omega) (by omega)
    (by omega) (by omega)
  simp only [seconds_of_fields, hq, hr, add_zero]
  omega

/-- The seconds of the fields of a UTC breakdown are the instant again. -/
theorem gmtime_r_seconds (v : Int) (u : tm) (h : gmtime_r v = some u) :
    seconds_of_fields u = v ∧ u.tm_isdst = 0 := by
  obtain ⟨era, yoe, doy, mp, hy0, hy1, hm0, hm1, hd0, hd1, hmp, hzz, hc⟩ :=
    civil_from_days_march (v / 86400)
  have hback := days_from_civil_of_days (v / 86400)
  obtain ⟨m, hm⟩ : ∃ m, m = (civil_from_days (v / 86400)).2.1 := ⟨_, rfl⟩
  have hmr : 1 ≤ m ∧ m ≤ 12 := by
    rw [hc] at hm
    simp only at hm
    split_ifs at hm <;> omega
  rw [← hm] at hback
  have hq : (m - 1) / 12 = 0 := by omega
  have hr : (m - 1) % 12 + 1 = m := by omega
  simp only [gmtime_r] at h
  split_ifs at h
  simp only [Option.some.injEq] at h
  rw [← h]
  simp only [seconds_of_fields, ← hm, hq, hr, and_true]
  have hyy : (civil_from_days (v / 86400)).1 - 1900 + 1900 + 0 = (civil_from_days (v / 86400)).1 := by
    omega
  rw [hyy]
  omega

/-- In a zone without daylight saving time, it is never in force. -/
theorem in_dst_fixed_offset (gmtoff v : Int) : in_dst (fixed_offset gmtoff) v = false := by
  simp [in_dst, fixed_offset]

/-- The local breakdown of the instant whose standard-time reading is `s`, for a
zone within a day of UTC and `s` within a few hundred thousand years of the
epoch: without daylight saving time in force it is the UTC breakdown of `s`, and
with it the breakdown of the instant an hour later, flagged. -/
theorem localtime_r_standard_reading (Z : Zone) (s : Int) (hoff0 : -86400 ≤ Z.gmtoff)
    (hoff1 : Z.gmtoff ≤ 86400) (hs0 : -8796093022208 ≤ s) (hs1 : s ≤ 8796093022208) :
    ∃ u, localtime_r Z (s - Z.gmtoff) = some u ∧
      u.tm_isdst = (if in_dst Z (s - Z.gmtoff) = true then 1 else 0) ∧
      (u.tm_isdst = 0 → gmtime_r s = some u) ∧
      (u.tm_isdst ≠ 0 → seconds_of_fields u = s + 3600) := by
  have h1 := gmtime_r_isSome (s - Z.gmtoff) (by omega) (by omega)
  obtain ⟨g, hg⟩ := Option.isSome_iff_exists.1 h1
  by_cases hd : in_dst Z (s - Z.gmtoff) = true
  · have h2 := gmtime_r_isSome (s + 3600) (by omega) (by omega)
    obtain ⟨u, hu⟩ := Option.isSome_iff_exists.1 h2
    have hcancel : s - Z.gmtoff + (Z.gmtoff + 3600) = s + 3600 := by omega
    have hsec := (gmtime_r_seconds _ _ hu).1
    have hloc : localtime_r Z (s - Z.gmtoff) = some { u with tm_isdst := 1 } := by
      unfold localtime_r
      rw [hg]
      simp only []
      rw [if_pos hd, hcancel, hu]
      rfl
    refine ⟨_, hloc, ?_, ?_, ?_⟩
    · simp only [hd, if_true]
    · intro h0
      simp at h0
    · intro _
      rw [← hsec]
      simp only [seconds_of_fields]
  · have h2 := gmtime_r_isSome s (by omega) (by omega)
    obtain ⟨u, hu⟩ := Option.isSome_iff_exists.1 h2
    have hcancel : s - Z.gmtoff + Z.gmtoff = s := by omega
    have hdst := (gmtime_r_seconds _ _ hu).2
    have hloc : localtime_r Z (s - Z.gmtoff) = some u := by
      unfold localtime_r
      rw [hg]
      simp only []
      rw [if_neg hd, hcancel, hu]
    refine ⟨u, hloc, ?_, ?_, ?_⟩
    · rw [if_neg hd, hdst]
    · intro _
      exact hu
    · intro h0
      exact absurd hdst h0

/-- For fields in the ranges of `strptime`, with `tm_isdst` zero, and a local
time zone within a day of UTC, `mktime` does not fail: it returns the seconds
of the fields, moved by the standard offset of the zone. -/
theorem mktime_of_matched_fields (Z : Zone) (t : tm) (hoff0 : -86400 ≤ Z.gmtoff)
    (hoff1 : Z.gmtoff ≤ 86400) (ht : matched_fields t) :
    mktime Z t = seconds_of_fields t - Z.gmtoff := by
  have hb := seconds_of_fields_bounds t ht
  obtain ⟨u, hu, _⟩ := localtime_r_standard_reading Z (seconds_of_fields t) hoff0 hoff1
    (by omega) (by omega)
  have hdst : t.tm_isdst = 0 := by
    unfold matched_fields at ht
    omega
  have hrange : TIME_T_MIN ≤ seconds_of_fields t - Z.gmtoff ∧
      seconds_of_fields t - Z.gmtoff ≤ TIME_T_MAX := by
    unfold TIME_T_MIN TIME_T_MAX
    omega
  simp only [mktime, hdst, if_true, hu, hrange, and_self, Option.isSome_some]

theorem days_from_civil_next_month (y m : Int) (hm0 : 1 ≤ m) (hm1 : m ≤ 11) :
    days_from_civil y (m + 1) 1 = days_from_civil y m 1 + days_in_month y m := by
  by_cases h2 : m = 2
  · subst h2
    by_cases hl : is_leap y = true
    · have hl2 := (is_leap_iff y).1 hl
      simp only [days_from_civil, days_in_month, hl, if_true]
      norm_num
      by_cases h400 : y % 400 = 0
      · omega
      · omega
    · have hl2 := mt (is_leap_iff y).2 hl
      simp only [days_from_civil, days_in_month, hl]
      norm_num
      omega
  · simp only [days_from_civil, days_in_month, h2, if_false]
    interval_cases m <;> simp <;> omega

/-! ## The functions of gotime.c over any library -/

theorem int64_of_size_t_small (n : Nat) (h : (n : Int) < 2 ^ 63) : int64_of_size_t n = n := by
  unfold int64_of_size_t
  omega

theorem size_t_of_int64_nonneg (x : Int) (h0 : 0 ≤ x) (h1 : x < 2 ^ 64) :
    (size_t_of_int64 x : Int) = x := by
  unfold size_t_of_int64
  omega

/-- C1. When `strptime` reports no match, `parse_time` returns value 0 with
status 1 and its only library call is that `strptime`: `mktime` is not
consulted.  Conversely status 1 is returned only when `strptime` reports no
match. -/
theorem parse_time_no_match (L : Libc) (value format : List Char) :
    (L.strptime value format tm.zero = none →
      parse_time L value format = (⟨0, 1⟩, [Call.strptime value format]) ∧
      ∀ t, Call.mktime t ∉ (parse_time L value format).2) ∧
    ((parse_time L value format).1.status = 1 ↔ L.strptime value format tm.zero = none) := by
  cases h : L.strptime value format tm.zero with
  | none => simp [parse_time, h, ERR_PARSE]
  | some r =>
    obtain ⟨k, t⟩ := r
    by_cases hv : L.mktime t = -1 <;> simp [parse_time, h, hv, ERR_INVALID]

/-- C3. The status of `parse_time` is 0, 1 or 2; it is 2 exactly when `strptime`
matches and `mktime` returns its error value -1, and the value returned is then
that -1. -/
theorem parse_time_status (L : Libc) (value format : List Char) :
    ((parse_time L value format).1.status = 0 ∨ (parse_time L value format).1.status = 1 ∨
      (parse_time L value format).1.status = 2) ∧
    ((parse_time L value format).1.status = 2 ↔
      ∃ k t, L.strptime value format tm.zero = some (k, t) ∧ L.mktime t = -1) ∧
    ((parse_time L value format).1.status = 2 → (parse_time L value format).1.value = -1) := by
  cases h : L.strptime value format tm.zero with
  | none => simp [parse_time, h, ERR_PARSE]
  | some r =>
    obtain ⟨k, t⟩ := r
    by_cases hv : L.mktime t = -1
    · simp only [parse_time, h, hv, ERR_INVALID, if_true]
      exact ⟨by decide, ⟨fun _ => ⟨k, t, rfl, hv⟩, fun _ => trivial⟩, fun _ => trivial⟩
    · simp [parse_time, h, hv, ERR_INVALID]

/-- C4 (amended). When `strptime` matches and leaves trailing characters of the
text unconsumed, `parse_time` does not report a parse error: it goes on to
`mktime` with the fields matched and returns its value, with status 2 if that
value is -1 and status 0 otherwise. -/
theorem parse_time_trailing (L : Libc) (value format : List Char) (k : Nat) (t : tm)
    (hmatch : L.strptime value format tm.zero = some (k, t)) (_htrail : k < value.length) :
    parse_time L value format =
      (⟨L.mktime t, if L.mktime t = -1 then 2 else 0⟩,
        [Call.strptime value format, Call.mktime t]) ∧
    (parse_time L value format).1.status ≠ 1 := by
  by_cases hv : L.mktime t = -1 <;> simp [parse_time, hmatch, hv, ERR_INVALID]

/-- A render that fits: `fmt_time` returns its length and stores the text and its
terminating NUL at the start of `buf`. -/
theorem fmt_time_of_fit (L : Libc) (t : Int) (buf : List Char) (max_len : Int)
    (format : List Char) (tm : tm) (hconv : L.gmtime_r t = some tm)
    (hfit : ((L.render format tm).length : Int) < max_len) (hmax : max_len < 2 ^ 63) :
    fmt_time L t buf max_len format =
      (((L.render format tm).length : Int),
        L.render format tm ++ NUL :: buf.drop ((L.render format tm).length + 1),
        [Call.gmtime_r t, Call.strftime max_len.toNat format tm]) := by
  have hsz := size_t_of_int64_nonneg max_len (by omega) (by omega)
  have hle : (L.render format tm).length + 1 ≤ size_t_of_int64 max_len := by omega
  have hret := int64_of_size_t_small (L.render format tm).length (by omega)
  have hnat : size_t_of_int64 max_len = max_len.toNat := by omega
  rw [hnat] at hle
  simp only [fmt_time, hconv, strftime, hnat, hle, if_true, hret]

/-- C7. When `gmtime_r` converts `t` and `max_len` (a signed 64-bit value) is
greater than the length of the rendered text, `fmt_time` stores the rendering
of the UTC breakdown of `t` and its terminating NUL at the start of `buf` and
returns the length of the text, the number of characters written without the
NUL. -/
theorem fmt_time_writes (L : Libc) (t : Int) (buf : List Char) (max_len : Int)
    (format : List Char) (tm : tm) (hconv : L.gmtime_r t = some tm)
    (hfit : ((L.render format tm).length : Int) < max_len) (hmax : max_len < 2 ^ 63) :
    (fmt_time L t buf max_len format).1 = (L.render format tm).length ∧
    (fmt_time L t buf max_len format).2.1 =
      L.render format tm ++ NUL :: buf.drop ((L.render format tm).length + 1) := by
  rw [fmt_time_of_fit L t buf max_len format tm hconv hfit hmax]
  exact ⟨rfl, rfl⟩

/-- C8 (amended). When `gmtime_r` converts `t` and the rendered text with its
terminating NUL does not fit in the capacity `strftime` receives, `fmt_time`
returns 0.  That capacity is the signed 64-bit `max_len` converted to `size_t`:
`max_len` itself when it is zero or positive, `max_len + 2^64` when it is
negative. -/
theorem fmt_time_too_small (L : Libc) (t : Int) (buf : List Char) (max_len : Int)
    (format : List Char) (tm : tm) (hconv : L.gmtime_r t = some tm)
    (hmin : -2 ^ 63 ≤ max_len) (hmax : max_len < 2 ^ 63)
    (hsmall : size_t_of_int64 max_len < (L.render format tm).length + 1) :
    (fmt_time L t buf max_len format).1 = 0 ∧
    (size_t_of_int64 max_len : Int) = (if 0 ≤ max_len then max_len else max_len + 2 ^ 64) := by
  have hlt : ¬ ((L.render format tm).length + 1 ≤ size_t_of_int64 max_len) := by omega
  refine ⟨?_, ?_⟩
  · simp only [fmt_time, hconv, strftime, hlt, if_false]
    rfl
  · unfold size_t_of_int64
    split_ifs <;> omega

/-- C9. For a signed 64-bit `max_len` that is zero or positive, and for any
other `max_len` provided the text the format renders to is a C object (shorter
than `2^63` characters): `fmt_time` returns -2 exactly when `gmtime_r` fails; then
`gmtime_r` is its only library call (`strftime` is not called) and `buf` is
unchanged.  In every other case the value returned is not negative, so -2 is
the only negative value returned. -/
theorem fmt_time_invalid (L : Libc) (t : Int) (buf : List Char) (max_len : Int)
    (format : List Char)
    (hobj : (0 ≤ max_len ∧ max_len < 2 ^ 63) ∨
      ∀ tm, ((L.render format tm).length : Int) < 2 ^ 63) :
    ((fmt_time L t buf max_len format).1 = -2 ↔ L.gmtime_r t = none) ∧
    (L.gmtime_r t = none →
      fmt_time L t buf max_len format = (-2, buf, [Call.gmtime_r t])) ∧
    (L.gmtime_r t ≠ none → 0 ≤ (fmt_time L t buf max_len format).1) ∧
    ((fmt_time L t buf max_len format).1 < 0 → (fmt_time L t buf max_len format).1 = -2) := by
  cases h : L.gmtime_r t with
  | none => simp [fmt_time, h, ERR_INVALID]
  | some tm =>
    have h0 : int64_of_size_t 0 = 0 := by unfold int64_of_size_t; omega
    by_cases hle : (L.render format tm).length + 1 ≤ size_t_of_int64 max_len
    · have hlen : ((L.render format tm).length : Int) < 2 ^ 63 := by
        rcases hobj with ⟨hm0, hm1⟩ | hall
        · have hsz := size_t_of_int64_nonneg max_len hm0 (by omega)
          omega
        · exact hall tm
      have hret := int64_of_size_t_small (L.render format tm).length hlen
      simp only [fmt_time, h, strftime, hle, if_true, hret]
      refine ⟨?_, ?_, ?_, ?_⟩ <;> simp
    · simp only [fmt_time, h, strftime, hle, if_false, h0]
      simp

/-! ## `parse_time` over the reference library -/

/-- With the `mktime` of the reference library, whatever the `strptime`: when
the match leaves fields in the ranges of `strptime`, `parse_time` returns their
seconds read as standard time of the zone. -/
theorem parse_time_standard (L : Libc) (Z : Zone) (value format : List Char) (k : Nat) (t : tm)
    (hmk : ∀ x, L.mktime x = mktime Z x) (hoff0 : -86400 ≤ Z.gmtoff) (hoff1 : Z.gmtoff ≤ 86400)
    (hmatch : L.strptime value format tm.zero = some (k, t)) (hf : matched_fields t) :
    parse_time L value format =
      (⟨seconds_of_fields t - Z.gmtoff, if seconds_of_fields t - Z.gmtoff = -1 then 2 else 0⟩,
        [Call.strptime value format, Call.mktime t]) := by
  have hm := mktime_of_matched_fields Z t hoff0 hoff1 hf
  simp only [parse_time, hmatch, hmk, hm, ERR_INVALID]
  split_ifs <;> rfl

theorem parse_time_glibc (gmtoff : Int) (value format : List Char) (k : Nat) (t : tm)
    (hoff0 : -86400 ≤ gmtoff) (hoff1 : gmtoff ≤ 86400)
    (hmatch : strptime value format tm.zero = some (k, t)) :
    parse_time (glibc gmtoff) value format =
      (⟨seconds_of_fields t - gmtoff, if seconds_of_fields t - gmtoff = -1 then 2 else 0⟩,
        [Call.strptime value format, Call.mktime t]) :=
  parse_time_standard (glibc gmtoff) (fixed_offset gmtoff) value format k t (fun _ => rfl)
    hoff0 hoff1 hmatch (strptime_fields value format k t hmatch)

theorem seconds_of_fields_carry_day (t : tm) (hm0 : 0 ≤ t.tm_mon) (hm1 : t.tm_mon ≤ 10) :
    seconds_of_fields (carry_day t) = seconds_of_fields t := by
  have hq : t.tm_mon / 12 = 0 := by omega
  have hr : t.tm_mon % 12 + 1 = t.tm_mon + 1 := by omega
  have hq2 : (t.tm_mon + 1) / 12 = 0 := by omega
  have hr2 : (t.tm_mon + 1) % 12 + 1 = t.tm_mon + 1 + 1 := by omega
  have hnext := days_from_civil_next_month (t.tm_year + 1900) (t.tm_mon + 1) (by omega) (by omega)
  simp only [seconds_of_fields, carry_day, hq, hr, hq2, hr2, add_zero, hnext]
  ring

/-- C6 (amended). Whatever the matcher, with the `mktime` of a local time zone
within a day of UTC: when the text matches, leaving fields in the ranges of
`strptime` with a day that exceeds the length of its month (and a time of day
up to 23:59:59), `parse_time` does not return status 2: `mktime` carries the
excess days into the following month, and `parse_time` returns status 0 with
the epoch seconds of that normalised date read as standard time of the zone.
While daylight saving time is not in force at the value returned, its local
calendar breakdown shows exactly the normalised date and time; while it is in
force, its local breakdown shows the time an hour after them. -/
theorem parse_time_day_overflow (L : Libc) (Z : Zone) (value format : List Char) (k : Nat)
    (t : tm) (hmk : ∀ x, L.mktime x = mktime Z x)
    (hoff0 : -86400 ≤ Z.gmtoff) (hoff1 : Z.gmtoff ≤ 86400)
    (hmatch : L.strptime value format tm.zero = some (k, t))
    (hfields : matched_fields t)
    (hover : days_in_month (t.tm_year + 1900) (t.tm_mon + 1) < t.tm_mday)
    (hsec : t.tm_sec ≤ 59) :
    (parse_time L value format).1 = ⟨seconds_of_fields t - Z.gmtoff, 0⟩ ∧
    ∃ u, localtime_r Z (seconds_of_fields t - Z.gmtoff) = some u ∧
      u.tm_isdst = (if in_dst Z (seconds_of_fields t - Z.gmtoff) = true then 1 else 0) ∧
      (u.tm_isdst = 0 → same_date_time u (carry_day t)) ∧
      (u.tm_isdst ≠ 0 → seconds_of_fields u = seconds_of_fields (carry_day t) + 3600) := by
  have hb := seconds_of_fields_bounds t hfields
  obtain ⟨hy0, hy1, hm0, hm1, hd0, hd1, hh0, hh1, hmi0, hmi1, hs0, hs1, _⟩ := hfields
  -- the month is shorter than 31 days, so it is not December
  have hlen : 28 ≤ days_in_month (t.tm_year + 1900) (t.tm_mon + 1) ∧
      (t.tm_mon = 11 → days_in_month (t.tm_year + 1900) (t.tm_mon + 1) = 31) ∧
      28 ≤ days_in_month (t.tm_year + 1900) (t.tm_mon + 1 + 1) := by
    unfold days_in_month
    split_ifs <;> omega
  have hvalid : valid_date_time (carry_day t) := by
    unfold valid_date_time carry_day
    simp only
    omega
  have hsame := seconds_of_fields_carry_day t hm0 (by omega)
  obtain ⟨w, hw, hsd⟩ := gmtime_r_seconds_of_fields (carry_day t) hvalid
    (by unfold carry_day; simp only; omega) (by unfold carry_day; simp only; omega)
  rw [hsame] at hw
  obtain ⟨u, hu, hflag, hstd, hday⟩ := localtime_r_standard_reading Z (seconds_of_fields t)
    hoff0 hoff1 (by omega) (by omega)
  refine ⟨?_, u, hu, hflag, ?_, by rw [hsame]; exact hday⟩
  swap
  · intro h0
    have := hstd h0
    rw [hw, Option.some.injEq] at this
    rw [← this]
    exact hsd
  rw [parse_time_standard L Z value format k t hmk hoff0 hoff1 hmatch
    ⟨hy0, hy1, hm0, hm1, hd0, hd1, hh0, hh1, hmi0, hmi1, hs0, hs1, by assumption⟩]
  have hne : seconds_of_fields t - Z.gmtoff ≠ -1 := by
    -- a local date from the 1st to the 3rd of a month is more than a day from the epoch
    intro hminus
    have hS : seconds_of_fields t = Z.gmtoff - 1 := by omega
    have hday : (Z.gmtoff - 1) / 86400 = -2 ∨ (Z.gmtoff - 1) / 86400 = -1 ∨
        (Z.gmtoff - 1) / 86400 = 0 := by omega
    have hc2 : civil_from_days (-2) = (1969, 12, 30) := by decide
    have hc1 : civil_from_days (-1) = (1969, 12, 31) := by decide
    have hc0 : civil_from_days 0 = (1970, 1, 1) := by decide
    have hir : INT_MIN ≤ (1969 : Int) - 1900 ∧ (1969 : Int) - 1900 ≤ INT_MAX ∧
        INT_MIN ≤ (1970 : Int) - 1900 ∧ (1970 : Int) - 1900 ≤ INT_MAX := by decide
    obtain ⟨_, hmon, hmday, _⟩ := hsd
    rw [hS] at hw
    simp only [gmtime_r] at hw
    rcases hday with h | h | h <;> rw [h] at hw
    · simp only [hc2, hir, and_self, if_true, Option.some.injEq] at hw
      rw [← hw] at hmday
      simp only [carry_day] at hmday
      omega
    · simp only [hc1, hir, and_self, if_true, Option.some.injEq] at hw
      rw [← hw] at hmday
      simp only [carry_day] at hmday
      omega
    · simp only [hc0, hir, and_self, if_true, Option.some.injEq] at hw
      rw [← hw] at hmon
      simp only [carry_day] at hmon
      omega
  simp only [hne, if_false]

theorem get_number_nil (lo hi n : Nat) : get_number lo hi n [] = none := by
  simp [get_number]

/-- On the empty text the matching loop fails as soon as the format holds a
character that is not white space. -/
theorem strptime_loop_empty_text (fmt : List Char) :
    ∀ (t : tm), (∃ c ∈ fmt, isspace c = false) → strptime_loop fmt [] t = none := by
  induction fmt with
  | nil => intro t ⟨c, hc, _⟩; simp at hc
  | cons f fmt ih =>
    intro t ⟨c, hc, hns⟩
    by_cases hsp : isspace f = true
    · rw [strptime_loop_space f fmt [] t hsp]
      have hc2 : c ∈ fmt := by
        rcases List.mem_cons.1 hc with h | h
        · rw [h, hsp] at hns; exact absurd hns (by decide)
        · exact h
      exact ih t ⟨c, hc2, hns⟩
    · by_cases hpc : f = '%'
      · subst hpc
        cases fmt with
        | nil => exact strptime_loop_percent_end [] t
        | cons d fmt =>
          rw [strptime_loop_conv]
          simp only [get_number_nil, Option.none_bind, ite_self]
      · rw [strptime_loop_char f fmt [] t (by simpa using hsp) hpc]

/-- The empty text matches a format made of white space only, the empty format
included. -/
theorem strptime_loop_white_space (fmt : List Char) :
    ∀ (t : tm), (∀ c ∈ fmt, isspace c = true) → strptime_loop fmt [] t = some ([], t) := by
  induction fmt with
  | nil => intro t _; rfl
  | cons f fmt ih =>
    intro t h
    rw [strptime_loop_space f fmt [] t (h f (by simp))]
    exact ih t (fun c hc => h c (by simp [hc]))

/-- C5 (amended). For every format of the vocabulary that holds a character other
than white space, `parse_time` applied to the empty text returns status 1 with
value 0, and `mktime` is not called.  A format of white space only, the empty
format included, matches the empty text: `parse_time` then returns status 0
with the conversion of the all-zero breakdown, which is 1899-12-31 00:00:00
local time. -/
theorem parse_time_empty_text (gmtoff : Int) (format : List Char)
    (_hvoc : in_vocabulary format = true) (hoff0 : -86400 ≤ gmtoff) (hoff1 : gmtoff ≤ 86400) :
    ((∃ c ∈ format, isspace c = false) →
      parse_time (glibc gmtoff) [] format = (⟨0, 1⟩, [Call.strptime [] format])) ∧
    ((∀ c ∈ format, isspace c = true) →
      parse_time (glibc gmtoff) [] format =
        (⟨-2209075200 - gmtoff, 0⟩, [Call.strptime [] format, Call.mktime tm.zero])) := by
  constructor
  · intro hch
    have h : strptime [] format tm.zero = none := by
      simp only [strptime, strptime_loop_empty_text format tm.zero hch, Option.map_none']
    simp only [parse_time, glibc, glibc_tz, h, ERR_PARSE]
  · intro hws
    have h : strptime [] format tm.zero = some (0, tm.zero) := by
      simp only [strptime, strptime_loop_white_space format tm.zero hws, Option.map_some',
        List.length_nil, derive_days_white_space format tm.zero hws]
    have hs : seconds_of_fields tm.zero = -2209075200 := by decide
    rw [parse_time_glibc gmtoff [] format 0 tm.zero hoff0 hoff1 h, hs]
    have hne : ¬ (-2209075200 - gmtoff = -1) := by omega
    simp only [hne, if_false]

/-! ## The round trip -/

theorem int_wrap_small (x : Int) (h0 : -2 ^ 31 ≤ x) (h1 : x < 2 ^ 31) : int_wrap x = x := by
  unfold int_wrap
  omega

theorem render_utc_format (u : tm) :
    render utc_format u =
      number 1 (int_wrap (u.tm_year + 1900)) ++ '-' :: (number 2 (int_wrap (u.tm_mon + 1)) ++ '-' ::
        (number 2 u.tm_mday ++ 'T' :: (number 2 u.tm_hour ++ ':' ::
          (number 2 u.tm_min ++ ':' :: (number 2 u.tm_sec ++ ['Z']))))) := by
  rfl

theorem strptime_loop_Y (fmt rp : List Char) (t : tm) :
    strptime_loop ('%' :: 'Y' :: fmt) rp t =
      (get_number 0 9999 4 rp).bind fun r =>
        strptime_loop fmt r.2 { t with tm_year := (r.1 : Int) - 1900 } := by
  rfl

theorem strptime_loop_m (fmt rp : List Char) (t : tm) :
    strptime_loop ('%' :: 'm' :: fmt) rp t =
      (get_number 1 12 2 rp).bind fun r =>
        strptime_loop fmt r.2 { t with tm_mon := (r.1 : Int) - 1 } := by
  rfl

theorem strptime_loop_d (fmt rp : List Char) (t : tm) :
    strptime_loop ('%' :: 'd' :: fmt) rp t =
      (get_number 1 31 2 rp).bind fun r =>
        strptime_loop fmt r.2 { t with tm_mday := (r.1 : Int) } := by
  rfl

theorem strptime_loop_H (fmt rp : List Char) (t : tm) :
    strptime_loop ('%' :: 'H' :: fmt) rp t =
      (get_number 0 23 2 rp).bind fun r =>
        strptime_loop fmt r.2 { t with tm_hour := (r.1 : Int) } := by
  rfl

theorem strptime_loop_M (fmt rp : List Char) (t : tm) :
    strptime_loop ('%' :: 'M' :: fmt) rp t =
      (get_number 0 59 2 rp).bind fun r =>
        strptime_loop fmt r.2 { t with tm_min := (r.1 : Int) } := by
  rfl

theorem strptime_loop_S (fmt rp : List Char) (t : tm) :
    strptime_loop ('%' :: 'S' :: fmt) rp t =
      (get_number 0 61 2 rp).bind fun r =>
        strptime_loop fmt r.2 { t with tm_sec := (r.1 : Int) } := by
  rfl

theorem strptime_loop_same_char (f : Char) (fmt rp : List Char) (t : tm)
    (h1 : isspace f = false) (h2 : f ≠ '%') :
    strptime_loop (f :: fmt) (f :: rp) t = strptime_loop fmt rp t := by
  rw [strptime_loop_char f fmt (f :: rp) t h1 h2]
  simp

theorem render_nil (u : tm) : render [] u = [] := rfl

theorem render_char (f : Char) (fmt : List Char) (u : tm) (h : f ≠ '%') :
    render (f :: fmt) u = f :: render fmt u := by
  unfold render
  rw [pieces.eq_def]
  simp only [ne_eq, h, not_false_eq_true, if_true, List.flatten_cons, List.singleton_append]

theorem render_percent (fmt : List Char) (u : tm) :
    render ('%' :: '%' :: fmt) u = '%' :: render fmt u := rfl

theorem render_Y (fmt : List Char) (u : tm) :
    render ('%' :: 'Y' :: fmt) u = number 1 (int_wrap (u.tm_year + 1900)) ++ render fmt u := rfl

theorem render_m (fmt : List Char) (u : tm) :
    render ('%' :: 'm' :: fmt) u = number 2 (int_wrap (u.tm_mon + 1)) ++ render fmt u := rfl

theorem render_d (fmt : List Char) (u : tm) :
    render ('%' :: 'd' :: fmt) u = number 2 u.tm_mday ++ render fmt u := rfl

theorem render_H (fmt : List Char) (u : tm) :
    render ('%' :: 'H' :: fmt) u = number 2 u.tm_hour ++ render fmt u := rfl

theorem render_M (fmt : List Char) (u : tm) :
    render ('%' :: 'M' :: fmt) u = number 2 u.tm_min ++ render fmt u := rfl

theorem render_S (fmt : List Char) (u : tm) :
    render ('%' :: 'S' :: fmt) u = number 2 u.tm_sec ++ render fmt u := rfl

theorem in_vocabulary_char (f : Char) (fmt : List Char) (h : f ≠ '%') :
    in_vocabulary (f :: fmt) = in_vocabulary fmt := by
  rw [in_vocabulary.eq_def]
  simp only [ne_eq, h, not_false_eq_true, if_true]

theorem in_vocabulary_conv (c : Char) (fmt : List Char)
    (h : in_vocabulary ('%' :: c :: fmt) = true) :
    (c = 'Y' ∨ c = 'm' ∨ c = 'd' ∨ c = 'H' ∨ c = 'M' ∨ c = 'S' ∨ c = '%') ∧
      in_vocabulary fmt = true := by
  rw [in_vocabulary.eq_def] at h
  simp only [ne_eq, not_true_eq_false, if_false, Bool.and_eq_true, Bool.or_eq_true,
    decide_eq_true_eq] at h
  refine ⟨?_, h.2⟩
  rcases h.1 with (((((h1 | h1) | h1) | h1) | h1) | h1) | h1
  · exact Or.inl h1
  · exact Or.inr (Or.inl h1)
  · exact Or.inr (Or.inr (Or.inl h1))
  · exact Or.inr (Or.inr (Or.inr (Or.inl h1)))
  · exact Or.inr (Or.inr (Or.inr (Or.inr (Or.inl h1))))
  · exact Or.inr (Or.inr (Or.inr (Or.inr (Or.inr (Or.inl h1)))))
  · exact Or.inr (Or.inr (Or.inr (Or.inr (Or.inr (Or.inr h1)))))

theorem year_delimited_char (f : Char) (fmt : List Char) (h : f ≠ '%') :
    year_delimited (f :: fmt) = year_delimited fmt := by
  rw [year_delimited.eq_def]
  simp only [ne_eq, h, not_false_eq_true, if_true]

theorem year_delimited_conv (c : Char) (fmt : List Char)
    (h : year_delimited ('%' :: c :: fmt) = true) :
    (c = 'Y' → no_digit_first fmt = true) ∧ year_delimited fmt = true := by
  rw [year_delimited.eq_def] at h
  simp only [ne_eq, not_true_eq_false, if_false, Bool.and_eq_true,
    Bool.or_eq_true, bne_iff_ne] at h
  refine ⟨fun hc => ?_, h.2⟩
  rcases h.1 with h1 | h1
  · exact absurd hc h1
  · exact h1

/-- The text rendered for a format that does not put a digit first does not
start with a digit. -/
theorem no_digit_first_render (fmt : List Char) (u : tm) (h : no_digit_first fmt = true) :
    (render fmt u).head?.map isdigit ≠ some true := by
  cases fmt with
  | nil => simp [render_nil]
  | cons f fmt =>
    by_cases hf : f = '%'
    · subst hf
      cases fmt with
      | nil =>
        have : render ['%'] u = ['%'] := rfl
        rw [this]
        simp [show isdigit '%' = false by decide]
      | cons c fmt =>
        have hc : c = '%' := by
          rw [no_digit_first.eq_def] at h
          simpa using h
        subst hc
        rw [render_percent]
        simp [show isdigit '%' = false by decide]
    · have hd : isdigit f = false := by
        rw [no_digit_first.eq_def] at h
        simpa [hf] using h
      rw [render_char f fmt u hf]
      simp [hd]

theorem read_back_char (u : tm) (f : Char) (fmt : List Char) (t : tm) (h : f ≠ '%') :
    read_back u (f :: fmt) t = read_back u fmt t := by
  rw [read_back.eq_def]
  simp only [ne_eq, h, not_false_eq_true, if_true]

theorem read_back_conv (u : tm) (c : Char) (fmt : List Char) (t : tm) :
    read_back u ('%' :: c :: fmt) t = read_back u fmt (set_field c u t) := rfl

theorem read_Y (u : tm) (hu : civil_fields u) (fmt rest : List Char) (t : tm)
    (hstop : 1000 ≤ u.tm_year + 1900 ∨ rest.head?.map isdigit ≠ some true) :
    strptime_loop ('%' :: 'Y' :: fmt) (number 1 (int_wrap (u.tm_year + 1900)) ++ rest) t
      = strptime_loop fmt rest (set_field 'Y' u t) := by
  obtain ⟨hY0, hY1, _⟩ := hu
  have hs : (number 1 (u.tm_year + 1900)).length = 4 ∨ rest.head?.map isdigit ≠ some true := by
    rcases hstop with h | h
    · exact Or.inl (number_year_length _ h hY1)
    · exact Or.inr h
  rw [int_wrap_small _ (by omega) (by omega), strptime_loop_Y,
    get_number_number 0 9999 4 1 (u.tm_year + 1900) rest (by omega) (by omega) (by omega)
      (by decide) (by decide) (by omega) hs, Option.some_bind]
  have hf : ((u.tm_year + 1900).toNat : Int) - 1900 = u.tm_year := by omega
  simp only [hf]
  rfl

theorem read_m (u : tm) (hu : civil_fields u) (fmt rest : List Char) (t : tm) :
    strptime_loop ('%' :: 'm' :: fmt) (number 2 (int_wrap (u.tm_mon + 1)) ++ rest) t
      = strptime_loop fmt rest (set_field 'm' u t) := by
  obtain ⟨_, _, hm0, hm1, _⟩ := hu
  rw [int_wrap_small _ (by omega) (by omega), strptime_loop_m,
    get_number_number 1 12 2 2 (u.tm_mon + 1) rest (by omega) (by omega) (by omega)
      (by decide) (by decide) (by omega) (Or.inl (number_two_length _ (by omega) (by omega))),
    Option.some_bind]
  have hf : ((u.tm_mon + 1).toNat : Int) - 1 = u.tm_mon := by omega
  simp only [hf]
  rfl

theorem read_d (u : tm) (hu : civil_fields u) (fmt rest : List Char) (t : tm) :
    strptime_loop ('%' :: 'd' :: fmt) (number 2 u.tm_mday ++ rest) t
      = strptime_loop fmt rest (set_field 'd' u t) := by
  obtain ⟨_, _, _, _, hd0, hd1, _⟩ := hu
  rw [strptime_loop_d,
    get_number_number 1 31 2 2 u.tm_mday rest (by omega) (by omega) (by omega)
      (by decide) (by decide) (by omega) (Or.inl (number_two_length _ (by omega) (by omega))),
    Option.some_bind]
  have hf : ((u.tm_mday).toNat : Int) = u.tm_mday := by omega
  simp only [hf]
  rfl

theorem read_H (u : tm) (hu : civil_fields u) (fmt rest : List Char) (t : tm) :
    strptime_loop ('%' :: 'H' :: fmt) (number 2 u.tm_hour ++ rest) t
      = strptime_loop fmt rest (set_field 'H' u t) := by
  obtain ⟨_, _, _, _, _, _, hH0, hH1, _⟩ := hu
  rw [strptime_loop_H,
    get_number_number 0 23 2 2 u.tm_hour rest (by omega) (by omega) (by omega)
      (by decide) (by decide) (by omega) (Or.inl (number_two_length _ (by omega) (by omega))),
    Option.some_bind]
  have hf : ((u.tm_hour).toNat : Int) = u.tm_hour := by omega
  simp only [hf]
  rfl

theorem read_M (u : tm) (hu : civil_fields u) (fmt rest : List Char) (t : tm) :
    strptime_loop ('%' :: 'M' :: fmt) (number 2 u.tm_min ++ rest) t
      = strptime_loop fmt rest (set_field 'M' u t) := by
  obtain ⟨_, _, _, _, _, _, _, _, hM0, hM1, _⟩ := hu
  rw [strptime_loop_M,
    get_number_number 0 59 2 2 u.tm_min rest (by omega) (by omega) (by omega)
      (by decide) (by decide) (by omega) (Or.inl (number_two_length _ (by omega) (by omega))),
    Option.some_bind]
  have hf : ((u.tm_min).toNat : Int) = u.tm_min := by omega
  simp only [hf]
  rfl

theorem read_S (u : tm) (hu : civil_fields u) (fmt rest : List Char) (t : tm) :
    strptime_loop ('%' :: 'S' :: fmt) (number 2 u.tm_sec ++ rest) t
      = strptime_loop fmt rest (set_field 'S' u t) := by
  obtain ⟨_, _, _, _, _, _, _, _, _, _, hS0, hS1⟩ := hu
  rw [strptime_loop_S,
    get_number_number 0 61 2 2 u.tm_sec rest (by omega) (by omega) (by omega)
      (by decide) (by decide) (by omega) (Or.inl (number_two_length _ (by omega) (by omega))),
    Option.some_bind]
  have hf : ((u.tm_sec).toNat : Int) = u.tm_sec := by omega
  simp only [hf]
  rfl

theorem dropWhile_isspace_idem (l : List Char) :
    (l.dropWhile isspace).dropWhile isspace = l.dropWhile isspace := by
  induction l with
  | nil => rfl
  | cons c l ih =>
    by_cases h : isspace c = true
    · simp only [List.dropWhile_cons, h, if_true, ih]
    · simp only [List.dropWhile_cons, h, if_false]
      simp [List.dropWhile_cons, h]

theorem dropWhile_isspace_cons (c : Char) (l : List Char) (h : isspace c = false) :
    (c :: l).dropWhile isspace = c :: l := by
  simp [List.dropWhile_cons, h]

/-- Reading back a rendered text: on the text `strftime` renders for a format of
the vocabulary from the fields `u`, with or without the white space at its
start, the loop of `strptime` matches to the end and every conversion recovers
its field. -/
theorem strptime_loop_render (u : tm) (hu : civil_fields u) (n : Nat) :
    ∀ (fmt : List Char), fmt.length ≤ n → in_vocabulary fmt = true →
      (1000 ≤ u.tm_year + 1900 ∨ year_delimited fmt = true) → ∀ (t : tm),
      strptime_loop fmt (render fmt u) t = some ([], read_back u fmt t) ∧
      strptime_loop fmt ((render fmt u).dropWhile isspace) t = some ([], read_back u fmt t) := by
  induction n with
  | zero =>
    intro fmt hlen _ _ t
    have : fmt = [] := List.length_eq_zero.1 (by omega)
    subst this
    exact ⟨rfl, rfl⟩
  | succ n ih =>
    intro fmt hlen hvoc hyear t
    cases fmt with
    | nil => exact ⟨rfl, rfl⟩
    | cons f fmt =>
      simp only [List.length_cons] at hlen
      by_cases hf : f = '%'
      · subst hf
        cases fmt with
        | nil => exact absurd hvoc (by decide)
        | cons c fmt =>
          simp only [List.length_cons] at hlen
          obtain ⟨hc, hvoc2⟩ := in_vocabulary_conv c fmt hvoc
          have hyear2 : 1000 ≤ u.tm_year + 1900 ∨ year_delimited fmt = true := by
            rcases hyear with h | h
            · exact Or.inl h
            · exact Or.inr (year_delimited_conv c fmt h).2
          have hrec := ih fmt (by omega) hvoc2 hyear2
          obtain ⟨hY0, hY1, hm0, hm1, hd0, hd1, hH0, hH1, hM0, hM1, hS0, hS1⟩ := hu
          have hu2 : civil_fields u :=
            ⟨hY0, hY1, hm0, hm1, hd0, hd1, hH0, hH1, hM0, hM1, hS0, hS1⟩
          rw [read_back_conv]
          rcases hc with rfl | rfl | rfl | rfl | rfl | rfl | rfl
          · have hstop : 1000 ≤ u.tm_year + 1900 ∨
                (render fmt u).head?.map isdigit ≠ some true := by
              rcases hyear with h | h
              · exact Or.inl h
              · exact Or.inr (no_digit_first_render fmt u ((year_delimited_conv 'Y' fmt h).1 rfl))
            have hdrop := (number_head_digit 1 (u.tm_year + 1900) (render fmt u) hY0
              (by omega)).1
            rw [← int_wrap_small (u.tm_year + 1900) (by omega) (by omega)] at hdrop
            rw [render_Y, hdrop, read_Y u hu2 fmt _ t hstop]
            exact ⟨(hrec _).1, (hrec _).1⟩
          · have hdrop := (number_head_digit 2 (u.tm_mon + 1) (render fmt u) (by omega)
              (by omega)).1
            rw [← int_wrap_small (u.tm_mon + 1) (by omega) (by omega)] at hdrop
            rw [render_m, hdrop, read_m u hu2 fmt _ t]
            exact ⟨(hrec _).1, (hrec _).1⟩
          · have hdrop := (number_head_digit 2 u.tm_mday (render fmt u) (by omega)
              (by omega)).1
            rw [render_d, hdrop, read_d u hu2 fmt _ t]
            exact ⟨(hrec _).1, (hrec _).1⟩
          · have hdrop := (number_head_digit 2 u.tm_hour (render fmt u) (by omega)
              (by omega)).1
            rw [render_H, hdrop, read_H u hu2 fmt _ t]
            exact ⟨(hrec _).1, (hrec _).1⟩
          · have hdrop := (number_head_digit 2 u.tm_min (render fmt u) (by omega)
              (by omega)).1
            rw [render_M, hdrop, read_M u hu2 fmt _ t]
            exact ⟨(hrec _).1, (hrec _).1⟩
          · have hdrop := (number_head_digit 2 u.tm_sec (render fmt u) (by omega)
              (by omega)).1
            rw [render_S, hdrop, read_S u hu2 fmt _ t]
            exact ⟨(hrec _).1, (hrec _).1⟩
          · have hstep : strptime_loop ('%' :: '%' :: fmt) ('%' :: render fmt u) t
                = strptime_loop fmt (render fmt u) t := by
              rw [strptime_loop_conv]
              simp
            rw [render_percent, dropWhile_isspace_cons '%' _ (by decide), hstep]
            have : set_field '%' u t = t := rfl
            rw [this]
            exact ⟨(hrec _).1, (hrec _).1⟩
      · have hvoc2 : in_vocabulary fmt = true := by
          rw [in_vocabulary_char f fmt hf] at hvoc; exact hvoc
        have hyear2 : 1000 ≤ u.tm_year + 1900 ∨ year_delimited fmt = true := by
          rcases hyear with h | h
          · exact Or.inl h
          · rw [year_delimited_char f fmt hf] at h; exact Or.inr h
        have hrec := ih fmt (by omega) hvoc2 hyear2 t
        rw [render_char f fmt u hf, read_back_char u f fmt t hf]
        by_cases hsp : isspace f = true
        · have hd : (f :: render fmt u).dropWhile isspace = (render fmt u).dropWhile isspace := by
            simp [List.dropWhile_cons, hsp]
          rw [strptime_loop_space f fmt _ t hsp, strptime_loop_space f fmt _ t hsp, hd,
            dropWhile_isspace_idem]
          exact ⟨hrec.2, hrec.2⟩
        · have hsp2 : isspace f = false := by simpa using hsp
          rw [dropWhile_isspace_cons f _ hsp2, strptime_loop_same_char f fmt _ t hsp2 hf]
          exact ⟨hrec.1, hrec.1⟩

theorem has_conversion_char (c f : Char) (fmt : List Char) (h : f ≠ '%') :
    has_conversion c (f :: fmt) = has_conversion c fmt := by
  rw [has_conversion.eq_def]
  simp only [ne_eq, h, not_false_eq_true, if_true]

theorem has_conversion_conv (c d : Char) (fmt : List Char) :
    has_conversion c ('%' :: d :: fmt) = (decide (d = c) || has_conversion c fmt) := rfl

/-- Each field read back is the field of `u` when its conversion occurs in the
format, and is left as it was otherwise. -/
theorem read_back_fields (u : tm) (n : Nat) :
    ∀ (fmt : List Char), fmt.length ≤ n → in_vocabulary fmt = true → ∀ (t : tm),
      (read_back u fmt t).tm_year = (if has_conversion 'Y' fmt then u.tm_year else t.tm_year) ∧
      (read_back u fmt t).tm_mon = (if has_conversion 'm' fmt then u.tm_mon else t.tm_mon) ∧
      (read_back u fmt t).tm_mday = (if has_conversion 'd' fmt then u.tm_mday else t.tm_mday) ∧
      (read_back u fmt t).tm_hour = (if has_conversion 'H' fmt then u.tm_hour else t.tm_hour) ∧
      (read_back u fmt t).tm_min = (if has_conversion 'M' fmt then u.tm_min else t.tm_min) ∧
      (read_back u fmt t).tm_sec = (if has_conversion 'S' fmt then u.tm_sec else t.tm_sec) := by
  induction n with
  | zero =>
    intro fmt hlen _ t
    have : fmt = [] := List.length_eq_zero.1 (by omega)
    subst this
    simp [read_back, has_conversion]
  | succ n ih =>
    intro fmt hlen hvoc t
    cases fmt with
    | nil => simp [read_back, has_conversion]
    | cons f fmt =>
      simp only [List.length_cons] at hlen
      by_cases hf : f = '%'
      · subst hf
        cases fmt with
        | nil => exact absurd hvoc (by decide)
        | cons c fmt =>
          simp only [List.length_cons] at hlen
          obtain ⟨hc, hvoc2⟩ := in_vocabulary_conv c fmt hvoc
          have hrec := ih fmt (by omega) hvoc2 (set_field c u t)
          rw [read_back_conv]
          simp only [has_conversion_conv]
          obtain ⟨h1, h2, h3, h4, h5, h6⟩ := hrec
          rw [h1, h2, h3, h4, h5, h6]
          rcases hc with rfl | rfl | rfl | rfl | rfl | rfl | rfl <;>
            (refine ⟨?_, ?_, ?_, ?_, ?_, ?_⟩ <;> simp [set_field])
      · have hvoc2 : in_vocabulary fmt = true := by
          rw [in_vocabulary_char f fmt hf] at hvoc; exact hvoc
        have hrec := ih fmt (by omega) hvoc2 t
        rw [read_back_char u f fmt t hf]
        simp only [has_conversion_char _ f fmt hf]
        exact hrec

/-- The UTC breakdown of an instant of the years 0 to 9999: it exists, its fields
are in their calendar ranges (with a year of four digits from the year 1000 on),
and their seconds are the instant again. -/
theorem gmtime_r_four_digit_year (t : Int) (hlo : -62167219200 ≤ t) (hhi : t ≤ 253402300799) :
    ∃ u, gmtime_r t = some u ∧ civil_fields u ∧
      (-30610224000 ≤ t → 1000 ≤ u.tm_year + 1900) ∧ seconds_of_fields u = t := by
  obtain ⟨z, hz⟩ : ∃ z, z = t / 86400 := ⟨_, rfl⟩
  obtain ⟨rem, hrem⟩ : ∃ rem, rem = t % 86400 := ⟨_, rfl⟩
  have hzr : -719528 ≤ z ∧ z ≤ 2932896 := by omega
  obtain ⟨era, yoe, doy, mp, hy0, hy1, hm0, hm1, hd0, hd1, hmp, hzz, hc⟩ :=
    civil_from_days_march z
  have hback := days_from_civil_of_days z
  obtain ⟨Y, hY⟩ : ∃ Y, Y = (civil_from_days z).1 := ⟨_, rfl⟩
  obtain ⟨m, hm⟩ : ∃ m, m = (civil_from_days z).2.1 := ⟨_, rfl⟩
  obtain ⟨d, hd⟩ : ∃ d, d = (civil_from_days z).2.2 := ⟨_, rfl⟩
  rw [← hY, ← hm, ← hd] at hback
  have hYr : 0 ≤ Y ∧ Y ≤ 9999 ∧ (-354285 ≤ z → 1000 ≤ Y) := by
    rw [hc] at hY
    simp only at hY
    have hera : -1 ≤ era ∧ era ≤ 24 := by omega
    obtain ⟨he0, he1⟩ := hera
    interval_cases era <;> split_ifs at hY <;> omega
  have hmr : 1 ≤ m ∧ m ≤ 12 := by
    rw [hc] at hm
    simp only at hm
    split_ifs at hm <;> omega
  have hdr : 1 ≤ d ∧ d ≤ 31 := by
    rw [hc] at hd
    simp only at hd
    omega
  have hrange : INT_MIN ≤ Y - 1900 ∧ Y - 1900 ≤ INT_MAX := by
    unfold INT_MIN INT_MAX
    omega
  have hg : gmtime_r t =
      some { tm_sec := rem % 60, tm_min := rem / 60 % 60, tm_hour := rem / 3600,
             tm_mday := d, tm_mon := m - 1, tm_year := Y - 1900,
             tm_wday := (z + 4) % 7, tm_yday := z - days_from_civil Y 1 1,
             tm_isdst := 0 } := by
    simp only [gmtime_r, ← hz, ← hrem, ← hY, ← hm, ← hd, hrange, and_self, if_true]
  refine ⟨_, hg, ?_, ?_, ?_⟩
  · unfold civil_fields
    simp only
    refine ⟨by omega, by omega, by omega, by omega, by omega, by omega, by omega, by omega,
      by omega, by omega, by omega, by omega⟩
  · intro h
    have hz2 : -354285 ≤ z := by omega
    have := hYr.2.2 hz2
    simp only
    omega
  · have hq : (m - 1) / 12 = 0 := by omega
    have hr : (m - 1) % 12 + 1 = m := by omega
    have hyy : Y - 1900 + 1900 + 0 = Y := by omega
    simp only [seconds_of_fields, hq, hr, hyy]
    omega

theorem cstr_append_NUL (xs ys : List Char) (h : ∀ c ∈ xs, c ≠ NUL) :
    cstr (xs ++ NUL :: ys) = xs := by
  induction xs with
  | nil => simp [cstr]
  | cons x xs ih =>
    have hx : x ≠ NUL := h x (by simp)
    have := ih (fun c hc => h c (by simp [hc]))
    simp only [cstr, List.cons_append, List.takeWhile_cons, bne_iff_ne, ne_eq, hx,
      not_false_eq_true, decide_True, if_true, List.cons.injEq, true_and] at this ⊢
    exact this

/-- The text rendered for a format of the vocabulary that holds no NUL, from
fields in their calendar ranges, holds no NUL. -/
theorem render_no_NUL (u : tm) (hu : civil_fields u) (n : Nat) :
    ∀ (fmt : List Char), fmt.length ≤ n → in_vocabulary fmt = true → (∀ c ∈ fmt, c ≠ NUL) →
      ∀ c ∈ render fmt u, c ≠ NUL := by
  obtain ⟨hY0, hY1, hm0, hm1, hd0, hd1, hH0, hH1, hM0, hM1, hS0, hS1⟩ := hu
  induction n with
  | zero =>
    intro fmt hlen _ _ c hc
    have : fmt = [] := List.length_eq_zero.1 (by omega)
    subst this
    simp [render_nil] at hc
  | succ n ih =>
    intro fmt hlen hvoc hnul x hx
    cases fmt with
    | nil => simp [render_nil] at hx
    | cons f fmt =>
      simp only [List.length_cons] at hlen
      by_cases hf : f = '%'
      · subst hf
        cases fmt with
        | nil => exact absurd hvoc (by decide)
        | cons c fmt =>
          simp only [List.length_cons] at hlen
          obtain ⟨hc, hvoc2⟩ := in_vocabulary_conv c fmt hvoc
          have hrec := ih fmt (by omega) hvoc2
            (fun y hy => hnul y (by simp [hy]))
          rcases hc with rfl | rfl | rfl | rfl | rfl | rfl | rfl
          · rw [render_Y, int_wrap_small _ (by omega) (by omega)] at hx
            rcases List.mem_append.1 hx with h | h
            · exact (number_head_digit 1 _ [] hY0 (by omega)).2 x h
            · exact hrec x h
          · rw [render_m, int_wrap_small _ (by omega) (by omega)] at hx
            rcases List.mem_append.1 hx with h | h
            · exact (number_head_digit 2 _ [] (by omega) (by omega)).2 x h
            · exact hrec x h
          · rw [render_d] at hx
            rcases List.mem_append.1 hx with h | h
            · exact (number_head_digit 2 _ [] (by omega) (by omega)).2 x h
            · exact hrec x h
          · rw [render_H] at hx
            rcases List.mem_append.1 hx with h | h
            · exact (number_head_digit 2 _ [] (by omega) (by omega)).2 x h
            · exact hrec x h
          · rw [render_M] at hx
            rcases List.mem_append.1 hx with h | h
            · exact (number_head_digit 2 _ [] (by omega) (by omega)).2 x h
            · exact hrec x h
          · rw [render_S] at hx
            rcases List.mem_append.1 hx with h | h
            · exact (number_head_digit 2 _ [] (by omega) (by omega)).2 x h
            · exact hrec x h
          · rw [render_percent] at hx
            rcases List.mem_cons.1 hx with h | h
            · rw [h]; decide
            · exact hrec x h
      · have hvoc2 : in_vocabulary fmt = true := by
          rw [in_vocabulary_char f fmt hf] at hvoc; exact hvoc
        have hrec := ih fmt (by omega) hvoc2 (fun y hy => hnul y (by simp [hy]))
        rw [render_char f fmt u hf] at hx
        rcases List.mem_cons.1 hx with h | h
        · rw [h]; exact hnul f (by simp)
        · exact hrec x h

/-- The round trip under UTC for an instant other than -1 and a format of the
vocabulary that expresses all six fields. -/
theorem round_trip_utc (format : List Char) (t : Int) (buf : List Char) (max_len : Int)
    (hvoc : in_vocabulary format = true) (hnul : ∀ c ∈ format, c ≠ NUL)
    (hall : expresses_all format = true)
    (hlo : -62167219200 ≤ t) (hhi : t ≤ 253402300799)
    (hyear : -30610224000 ≤ t ∨ year_delimited format = true) (hne : t ≠ -1)
    (hfit : ∀ u, gmtime_r t = some u → ((render format u).length : Int) < max_len)
    (hmax : max_len < 2 ^ 63) :
    0 ≤ (fmt_time (glibc 0) t buf max_len format).1 ∧
    (parse_time (glibc 0) (cstr (fmt_time (glibc 0) t buf max_len format).2.1) format).1
      = ⟨t, 0⟩ := by
  obtain ⟨u, hu, hcf, hy1000, hsec⟩ := gmtime_r_four_digit_year t hlo hhi
  have hnonul := render_no_NUL u hcf format.length format (le_refl _) hvoc hnul
  have hw := fmt_time_of_fit (glibc 0) t buf max_len format u hu
    (by show ((render format u).length : Int) < max_len; exact hfit u hu) hmax
  have hrender : (glibc 0).render format u = render format u := rfl
  rw [hrender] at hw
  rw [hw]
  simp only
  rw [cstr_append_NUL _ _ hnonul]
  refine ⟨by omega, ?_⟩
  have hyear2 : 1000 ≤ u.tm_year + 1900 ∨ year_delimited format = true := by
    rcases hyear with h | h
    · exact Or.inl (hy1000 h)
    · exact Or.inr h
  have hloop := (strptime_loop_render u hcf format.length format (le_refl _) hvoc hyear2
    tm.zero).1
  have hmatch : strptime (render format u) format tm.zero =
      some ((render format u).length - 0, derive_days format (read_back u format tm.zero)) := by
    simp only [strptime, hloop, Option.map_some', List.length_nil]
  rw [parse_time_glibc 0 _ format _ _ (by decide) (by decide) hmatch]
  simp only [expresses_all, Bool.and_eq_true] at hall
  obtain ⟨⟨⟨⟨⟨hcY, hcm⟩, hcd⟩, hcH⟩, hcM⟩, hcS⟩ := hall
  obtain ⟨h1, h2, h3, h4, h5, h6⟩ :=
    read_back_fields u format.length format (le_refl _) hvoc tm.zero
  simp only [hcY, hcm, hcd, hcH, hcM, hcS, if_true] at h1 h2 h3 h4 h5 h6
  have hsame : seconds_of_fields (derive_days format (read_back u format tm.zero)) = t := by
    rw [seconds_of_fields_derive_days, ← hsec]
    simp only [seconds_of_fields, h1, h2, h3, h4, h5, h6]
  rw [hsame]
  simp only [sub_zero, hne, if_false]

theorem parse_time_success_value (L : Libc) (value format : List Char) (t : Int)
    (h : (parse_time L value format).1 = ⟨t, 0⟩) : t ≠ -1 := by
  intro ht
  subst ht
  cases hs : L.strptime value format tm.zero with
  | none => simp [parse_time, hs, ERR_PARSE] at h
  | some r =>
    obtain ⟨k, u⟩ := r
    by_cases hv : L.mktime u = -1 <;> simp [parse_time, hs, hv, ERR_INVALID] at h

/-- C10 (amended). Round trip under UTC: for every instant `t` of the years 0 to
9999 that is not -1 (in particular for every such `t` returned by an earlier
successful `parse_time`, which is never -1), every capacity `max_len` greater
than the length of the rendered text, and every pattern of the vocabulary
(`%Y %m %d %H %M %S %%`, ordinary characters, white space) that expresses all of
year, month, day, hour, minute and second, where for an instant before the year
1000 no digit follows a `%Y` of the pattern: `fmt_time` returns the
non-negative length of the text it stores in `buf`, and `parse_time` applied to
that text with the same pattern returns status 0 and the value `t`. -/
theorem round_trip (format : List Char) (t : Int) (buf : List Char) (max_len : Int)
    (hvoc : in_vocabulary format = true) (hnul : ∀ c ∈ format, c ≠ NUL)
    (hall : expresses_all format = true)
    (hlo : -62167219200 ≤ t) (hhi : t ≤ 253402300799)
    (hyear : -30610224000 ≤ t ∨ year_delimited format = true)
    (hne : t ≠ -1 ∨ ∃ (L : Libc) (value pattern : List Char),
      (parse_time L value pattern).1 = ⟨t, 0⟩)
    (hfit : ∀ u, gmtime_r t = some u → ((render format u).length : Int) < max_len)
    (hmax : max_len < 2 ^ 63) :
    0 ≤ (fmt_time (glibc 0) t buf max_len format).1 ∧
    (parse_time (glibc 0) (cstr (fmt_time (glibc 0) t buf max_len format).2.1) format).1
      = ⟨t, 0⟩ := by
  have hne1 : t ≠ -1 := by
    rcases hne with h | ⟨L, value, pattern, h⟩
    · exact h
    · exact parse_time_success_value L value pattern t h
  exact round_trip_utc format t buf max_len hvoc hnul hall hlo hhi hyear hne1 hfit hmax

theorem decimal_loop_length (fuel : Nat) :
    ∀ (n : Nat) (acc : List Char), (decimal_loop fuel n acc).length ≤ fuel + acc.length := by
  induction fuel with
  | zero => intro n acc; simp [decimal_loop]
  | succ fuel ih =>
    intro n acc
    simp only [decimal_loop]
    split_ifs
    · simp only [List.length_cons]; omega
    · have := ih (n / 10) (Char.ofNat ('0'.toNat + n % 10) :: acc)
      simp only [List.length_cons] at this
      omega

theorem number_length (width : Nat) (v : Int) : (number width v).length ≤ width + 21 := by
  have h := decimal_loop_length 20 v.natAbs []
  simp only [List.length_nil, add_zero] at h
  simp only [number]
  split_ifs <;> simp only [List.length_cons, List.length_append, List.length_replicate] <;> omega

/-- The text rendered for `utc_format` is short, whatever the fields. -/
theorem render_utc_format_length (u : tm) : ((render utc_format u).length : Int) < 2 ^ 63 := by
  have h1 := number_length 1 (int_wrap (u.tm_year + 1900))
  have h2 := number_length 2 (int_wrap (u.tm_mon + 1))
  have h3 := number_length 2 u.tm_mday
  have h4 := number_length 2 u.tm_hour
  have h5 := number_length 2 u.tm_min
  have h6 := number_length 2 u.tm_sec
  rw [render_utc_format]
  simp only [List.length_append, List.length_cons, List.length_nil]
  omega

/-! ## The claims at concrete inputs -/

/-- C1 at a concrete input: the text `abc` does not match `%Y`. -/
theorem parse_time_no_match_witness :
    strptime "abc".toList "%Y".toList tm.zero = none ∧
    parse_time (glibc 0) "abc".toList "%Y".toList =
      (⟨0, 1⟩, [Call.strptime "abc".toList "%Y".toList]) :=
  ⟨by decide, ((parse_time_no_match (glibc 0) "abc".toList "%Y".toList).1 (by decide)).1⟩

/-- C3 at a concrete input: under UTC the text `1969-12-31 23:59:59` matches and
`mktime` returns -1, so the status is 2 and the value -1. -/
theorem parse_time_status_witness :
    (parse_time (glibc 0) "1969-12-31 23:59:59".toList "%Y-%m-%d %H:%M:%S".toList).1.status = 2 ∧
    (parse_time (glibc 0) "1969-12-31 23:59:59".toList "%Y-%m-%d %H:%M:%S".toList).1.value = -1 :=
  ⟨(parse_time_status (glibc 0) "1969-12-31 23:59:59".toList
      "%Y-%m-%d %H:%M:%S".toList).2.1.2 ⟨19, ⟨59, 59, 23, 31, 11, 69, 3, 364, 0⟩, by decide, by decide⟩,
   (parse_time_status (glibc 0) "1969-12-31 23:59:59".toList
      "%Y-%m-%d %H:%M:%S".toList).2.2 (by decide)⟩

/-- C4 fails at the input of the claim: `strptime` matches `2023-06-15xyz` against
`%Y-%m-%d` consuming 10 of its 13 characters, and `parse_time` returns status 0
with the epoch seconds of 2023-06-15 (UTC), not status 1. -/
theorem parse_time_trailing_counterexample :
    strptime "2023-06-15xyz".toList "%Y-%m-%d".toList tm.zero
      = some (10, ⟨0, 0, 0, 15, 5, 123, 4, 165, 0⟩) ∧
    10 < "2023-06-15xyz".toList.length ∧
    (parse_time (glibc 0) "2023-06-15xyz".toList "%Y-%m-%d".toList).1 = ⟨1686787200, 0⟩ := by
  decide

/-- C4 (amended) at the input of the claim. -/
theorem parse_time_trailing_witness :
    (glibc 0).strptime "2023-06-15xyz".toList "%Y-%m-%d".toList tm.zero
      = some (10, ⟨0, 0, 0, 15, 5, 123, 4, 165, 0⟩) ∧
    10 < "2023-06-15xyz".toList.length ∧
    (parse_time (glibc 0) "2023-06-15xyz".toList "%Y-%m-%d".toList).1.status ≠ 1 :=
  ⟨by decide, by decide,
    (parse_time_trailing (glibc 0) "2023-06-15xyz".toList "%Y-%m-%d".toList 10
      ⟨0, 0, 0, 15, 5, 123, 4, 165, 0⟩ (by decide) (by decide)).2⟩

/-- C5 fails at the empty pattern: the empty text matches it, `mktime` converts
the all-zero breakdown (1899-12-31 00:00:00 once normalised), and under UTC
`parse_time` returns status 0 with the value -2209075200. -/
theorem parse_time_empty_text_counterexample :
    parse_time (glibc 0) [] [] =
      (⟨-2209075200, 0⟩, [Call.strptime [] [], Call.mktime tm.zero]) := by
  decide

/-- C5 (amended) at the pattern `%Y-%m-%d`. -/
theorem parse_time_empty_text_witness :
    in_vocabulary "%Y-%m-%d".toList = true ∧
    parse_time (glibc 0) [] "%Y-%m-%d".toList = (⟨0, 1⟩, [Call.strptime [] "%Y-%m-%d".toList]) :=
  ⟨by decide,
    (parse_time_empty_text 0 "%Y-%m-%d".toList (by decide) (by decide) (by decide)).1
      ⟨'%', by decide, by decide⟩⟩

/-- C6 fails at the input of the claim: February 2021 has 28 days, the text
`2021-02-30` matches with day 30, and `parse_time` returns status 0, not
status 2, with the epoch seconds of 2021-03-02 00:00:00 local time, under UTC
and under US Eastern time. -/
theorem parse_time_day_overflow_counterexample :
    strptime "2021-02-30".toList "%Y-%m-%d".toList tm.zero
      = some (10, ⟨0, 0, 0, 30, 1, 121, 2, 60, 0⟩) ∧
    days_in_month 2021 2 = 28 ∧
    (parse_time (glibc 0) "2021-02-30".toList "%Y-%m-%d".toList).1 = ⟨1614643200, 0⟩ ∧
    localtime_r (fixed_offset 0) 1614643200 = some ⟨0, 0, 0, 2, 2, 121, 2, 60, 0⟩ ∧
    (parse_time (glibc_tz us_eastern) "2021-02-30".toList "%Y-%m-%d".toList).1
      = ⟨1614661200, 0⟩ ∧
    localtime_r us_eastern 1614661200 = some ⟨0, 0, 0, 2, 2, 121, 2, 60, 0⟩ := by
  decide

/-- C6 (amended) at the input of the claim under UTC, and at `2021-06-31` under
US Eastern time, where daylight saving time is in force at the value returned:
its local breakdown shows 2021-07-01 01:00:00. -/
theorem parse_time_day_overflow_witness :
    strptime "2021-02-30".toList "%Y-%m-%d".toList tm.zero
      = some (10, ⟨0, 0, 0, 30, 1, 121, 2, 60, 0⟩) ∧
    days_in_month (121 + 1900) (1 + 1) < 30 ∧
    (parse_time (glibc 0) "2021-02-30".toList "%Y-%m-%d".toList).1
      = ⟨seconds_of_fields ⟨0, 0, 0, 30, 1, 121, 2, 60, 0⟩ - (fixed_offset 0).gmtoff, 0⟩ ∧
    carry_day ⟨0, 0, 0, 30, 1, 121, 2, 60, 0⟩ = ⟨0, 0, 0, 2, 2, 121, 2, 60, 0⟩ ∧
    strptime "2021-06-31".toList "%Y-%m-%d".toList tm.zero
      = some (10, ⟨0, 0, 0, 31, 5, 121, 4, 181, 0⟩) ∧
    (parse_time (glibc_tz us_eastern) "2021-06-31".toList "%Y-%m-%d".toList).1
      = ⟨seconds_of_fields ⟨0, 0, 0, 31, 5, 121, 4, 181, 0⟩ - us_eastern.gmtoff, 0⟩ ∧
    seconds_of_fields ⟨0, 0, 0, 31, 5, 121, 4, 181, 0⟩ - us_eastern.gmtoff = 1625115600 ∧
    localtime_r us_eastern 1625115600 = some ⟨0, 0, 1, 1, 6, 121, 4, 181, 1⟩ :=
  ⟨by decide, by decide,
    (parse_time_day_overflow (glibc 0) (fixed_offset 0) "2021-02-30".toList "%Y-%m-%d".toList 10
      ⟨0, 0, 0, 30, 1, 121, 2, 60, 0⟩ (fun _ => rfl) (by decide) (by decide) (by decide)
      (by decide) (by decide) (by decide)).1,
    by decide, by decide,
    (parse_time_day_overflow (glibc_tz us_eastern) us_eastern "2021-06-31".toList
      "%Y-%m-%d".toList 10 ⟨0, 0, 0, 31, 5, 121, 4, 181, 0⟩ (fun _ => rfl) (by decide)
      (by decide) (by decide) (by decide) (by decide) (by decide)).1,
    by decide, by decide⟩

/-- C7 at the input of the specification: `fmt_time(0, buf, 64, "%Y-%m-%dT%H:%M:%SZ")`
with a 64-byte array stores `1970-01-01T00:00:00Z` and returns 20. -/
theorem fmt_time_writes_witness :
    gmtime_r 0 = some ⟨0, 0, 0, 1, 0, 70, 4, 0, 0⟩ ∧
    render utc_format ⟨0, 0, 0, 1, 0, 70, 4, 0, 0⟩ = "1970-01-01T00:00:00Z".toList ∧
    (fmt_time (glibc 0) 0 (List.replicate 64 NUL) 64 utc_format).1 = 20 ∧
    cstr (fmt_time (glibc 0) 0 (List.replicate 64 NUL) 64 utc_format).2.1
      = "1970-01-01T00:00:00Z".toList ∧
    (fmt_time (glibc 0) 0 (List.replicate 64 NUL) 64 utc_format).1
      = (((glibc 0).render utc_format ⟨0, 0, 0, 1, 0, 70, 4, 0, 0⟩).length : Int) :=
  ⟨by decide, by decide, by decide, by decide,
    (fmt_time_writes (glibc 0) 0 (List.replicate 64 NUL) 64 utc_format
      ⟨0, 0, 0, 1, 0, 70, 4, 0, 0⟩ (by decide) (by decide) (by decide)).1⟩

/-- C8 fails at a negative capacity: `max_len = -1` reaches `strftime` as the
capacity `2^64 - 1`, so the five bytes of `1970` and its NUL, which do not fit in
-1 bytes, are stored and `fmt_time` returns 4, not 0. -/
theorem fmt_time_too_small_counterexample :
    gmtime_r 0 = some ⟨0, 0, 0, 1, 0, 70, 4, 0, 0⟩ ∧
    render "%Y".toList ⟨0, 0, 0, 1, 0, 70, 4, 0, 0⟩ = "1970".toList ∧
    (-1 : Int) < ("1970".toList.length : Int) + 1 ∧
    size_t_of_int64 (-1) = 2 ^ 64 - 1 ∧
    (fmt_time (glibc 0) 0 (List.replicate 64 NUL) (-1) "%Y".toList).1 = 4 := by
  decide

/-- C8 (amended) at the input of the specification: capacity 5. -/
theorem fmt_time_too_small_witness :
    gmtime_r 1686825000 = some ⟨0, 30, 10, 15, 5, 123, 4, 165, 0⟩ ∧
    size_t_of_int64 5
      < ((glibc 0).render utc_format ⟨0, 30, 10, 15, 5, 123, 4, 165, 0⟩).length + 1 ∧
    (fmt_time (glibc 0) 1686825000 (List.replicate 5 NUL) 5 utc_format).1 = 0 :=
  ⟨by decide, by decide,
    (fmt_time_too_small (glibc 0) 1686825000 (List.replicate 5 NUL) 5 utc_format
      ⟨0, 30, 10, 15, 5, 123, 4, 165, 0⟩ (by decide) (by decide) (by decide) (by decide)).1⟩

/-- C9 at concrete inputs: `gmtime_r` fails on `2^62` (the year does not fit an
`int`), where `fmt_time` returns -2 and leaves a 64-byte array as it was; on 0 it
succeeds and `fmt_time` returns 20, also with the capacity -1. -/
theorem fmt_time_invalid_witness :
    gmtime_r (2 ^ 62) = none ∧
    fmt_time (glibc 0) (2 ^ 62) (List.replicate 64 NUL) 64 utc_format
      = (-2, List.replicate 64 NUL, [Call.gmtime_r (2 ^ 62)]) ∧
    (fmt_time (glibc 0) 0 (List.replicate 64 NUL) 64 utc_format).1 = 20 ∧
    0 ≤ (fmt_time (glibc 0) 0 (List.replicate 64 NUL) 64 utc_format).1 ∧
    0 ≤ (fmt_time (glibc 0) 0 (List.replicate 64 NUL) (-1) utc_format).1 :=
  ⟨by decide,
    (fmt_time_invalid (glibc 0) (2 ^ 62) (List.replicate 64 NUL) 64 utc_format
      (Or.inl (by decide))).2.1 (by decide),
    by decide,
    (fmt_time_invalid (glibc 0) 0 (List.replicate 64 NUL) 64 utc_format
      (Or.inl (by decide))).2.2.1 (by decide),
    (fmt_time_invalid (glibc 0) 0 (List.replicate 64 NUL) (-1) utc_format
      (Or.inr render_utc_format_length)).2.2.1 (by decide)⟩

/-- C10 fails at the instant -1, beyond the year 9999, and before the year 1000
when a digit follows the year: under UTC `fmt_time` renders -1 as
`1969-12-31T23:59:59Z` and `parse_time` returns status 2 for that text; it
renders 253402300800 as `10000-01-01T00:00:00Z`, which `strptime` does not match
(`%Y` reads at most four digits), so `parse_time` returns status 1; and with the
pattern `%Y%m%d%H%M%S` it renders -62009366400 (the year 5) as `50101000000`,
which `strptime` does not match either. -/
theorem round_trip_counterexample :
    (fmt_time (glibc 0) (-1) (List.replicate 64 NUL) 64 utc_format).1 = 20 ∧
    cstr (fmt_time (glibc 0) (-1) (List.replicate 64 NUL) 64 utc_format).2.1
      = "1969-12-31T23:59:59Z".toList ∧
    (parse_time (glibc 0)
      (cstr (fmt_time (glibc 0) (-1) (List.replicate 64 NUL) 64 utc_format).2.1)
      utc_format).1 = ⟨-1, 2⟩ ∧
    (fmt_time (glibc 0) 253402300800 (List.replicate 64 NUL) 64 utc_format).1 = 21 ∧
    cstr (fmt_time (glibc 0) 253402300800 (List.replicate 64 NUL) 64 utc_format).2.1
      = "10000-01-01T00:00:00Z".toList ∧
    (parse_time (glibc 0)
      (cstr (fmt_time (glibc 0) 253402300800 (List.replicate 64 NUL) 64 utc_format).2.1)
      utc_format).1 = ⟨0, 1⟩ ∧
    expresses_all "%Y%m%d%H%M%S".toList = true ∧
    cstr (fmt_time (glibc 0) (-62009366400) (List.replicate 64 NUL) 64
      "%Y%m%d%H%M%S".toList).2.1 = "50101000000".toList ∧
    (parse_time (glibc 0)
      (cstr (fmt_time (glibc 0) (-62009366400) (List.replicate 64 NUL) 64
        "%Y%m%d%H%M%S".toList).2.1)
      "%Y%m%d%H%M%S".toList).1 = ⟨0, 1⟩ := by
  decide

/-- C10 (amended) at the instant 2023-06-15T10:30:00Z with the pattern
`%Y-%m-%dT%H:%M:%SZ`. -/
theorem round_trip_witness :
    in_vocabulary utc_format = true ∧ expresses_all utc_format = true ∧
    year_delimited utc_format = true ∧
    cstr (fmt_time (glibc 0) 1686825000 (List.replicate 64 NUL) 64 utc_format).2.1
      = "2023-06-15T10:30:00Z".toList ∧
    0 ≤ (fmt_time (glibc 0) 1686825000 (List.replicate 64 NUL) 64 utc_format).1 ∧
    (parse_time (glibc 0)
      (cstr (fmt_time (glibc 0) 1686825000 (List.replicate 64 NUL) 64 utc_format).2.1)
      utc_format).1 = ⟨1686825000, 0⟩ :=
  ⟨by decide, by decide, by decide, by decide,
    round_trip utc_format 1686825000 (List.replicate 64 NUL) 64 (by decide) (by decide)
      (by decide) (by decide) (by decide) (Or.inl (by decide)) (Or.inl (by decide))
      (fun u hu => by
        have h : gmtime_r 1686825000 = some ⟨0, 30, 10, 15, 5, 123, 4, 165, 0⟩ := by decide
        rw [h] at hu
        cases hu
        decide)
      (by decide)⟩

end Strtime
